import Mathlib

/-!
oneTimePad: a verification development

A shallow embedding of the one-time-pad client (`oneTimePadEncryptClient.c`),
daemon (`oneTimePadEncryptServer.c`) and their shared transport functions
(`otpshared.c`).

Conventions of the embedding:

* a byte is a `Nat`; a `char` buffer is a `List Nat`, and every buffer the
  programs use is zero-filled before use (`memset(.., '\0', ..)`), so a read
  past the end of the list yields the byte `0`;
* a C string is the content of a buffer up to its first `0` byte (`cstr`);
* `int` values are `Int`; where a computation leaves the range of a 32-bit
  `int`, or an index leaves its array, the embedded function returns `none`
  (`atoi` apart, whose result is converted to `int` as the C library does).
-/

namespace OneTimePad

/-! ## Constants of `otpshared.h` and of the two programs -/

/-- The macro `CHARS` of `otpshared.h`: the bytes of `"ABCDEFGHIJKLMNOPQRSTUVWXYZ "`. -/
def CHARS : List Nat :=
  [65, 66, 67, 68, 69, 70, 71, 72, 73, 74, 75, 76, 77, 78, 79, 80, 81, 82, 83, 84,
   85, 86, 87, 88, 89, 90, 32]

/-- The macro `MAX_MSG_SIZE` of `otpshared.h`. -/
def MAX_MSG_SIZE : Nat := 150000

/-- The macro `SECRETCODESIZE` of both programs. -/
def SECRETCODESIZE : Nat := 16

/-- The macro `SECRETCODE` of the daemon (`SECRET_KEY` of the client): `"ENC"`. -/
def SECRETCODE : List Nat := [69, 78, 67]

/-- The macro `SECRET_MSG_SIZE` of the daemon. -/
def SECRET_MSG_SIZE : Nat := 3

/-- The macro `KEY_DELIMITER` of both programs: `"@ENC@"`. -/
def KEY_DELIMITER : List Nat := [64, 69, 78, 67, 64]

/-- The macro `DELIMITER_SIZE` of the daemon (`DELIMITER_LEN` of the client). -/
def DELIMITER_SIZE : Nat := 5

/-- The daemon's macro `END_CODE` (the client's `END_DELIMITER`): `"@END@"`. -/
def END_DELIMITER : List Nat := [64, 69, 78, 68, 64]

/-- The client's macro `END_CODE`: `"@@"`. -/
def CLIENT_END_CODE : List Nat := [64, 64]

/-- The client's macro `END_CODE_MSG_SIZE`. -/
def END_CODE_MSG_SIZE : Nat := 3

/-- The literal `"ACK"` of `getAck` and `sendAck`. -/
def ACK : List Nat := [65, 67, 75]

/-! ## C strings over zero-filled buffers -/

/-- The C string held at the start of a buffer: the bytes before the first `0`. -/
def cstr (buf : List Nat) : List Nat := buf.takeWhile (fun c => c ≠ 0)

/-- The function `strlen`. -/
def strlen (buf : List Nat) : Nat := (cstr buf).length

/-- The byte `buf[i]` of a zero-filled buffer. -/
def byteAt (buf : List Nat) (i : Nat) : Nat := buf.getD i 0

/-- A symbol of the 27-letter alphabet: `'A'..'Z'` or the space. -/
def isAlphabet (c : Nat) : Prop := (65 ≤ c ∧ c ≤ 90) ∨ c = 32

instance (c : Nat) : Decidable (isAlphabet c) := by
  unfold isAlphabet; infer_instance

/-- The alphabet index of a symbol: its position in `CHARS`
(`A` is 0, ..., `Z` is 25, the space is 26). -/
def alphabetIndex (c : Nat) : Nat := CHARS.indexOf c

/-! ## `encode` (oneTimePadEncryptServer.c) -/

/-- One iteration of the loop of `encode`: the byte stored in
`encryptedText[i]`, which is `charset[(a + b) % 27]`. The remainder is C's
truncating `%`; a negative index leaves `charset` and gives `none`. (Bytes are
taken as `0..255`; the alphabet lies below 128, where the sign of `char` plays
no part.) -/
def encodeAt (plaintext key : List Nat) (i : Nat) : Option Nat :=
  let a : Int := if byteAt plaintext i = 32 then 26 else (byteAt plaintext i : Int) - 65
  let b : Int := if byteAt key i = 32 then 26 else (byteAt key i : Int) - 65
  let c : Int := Int.tmod (a + b) 27
  if 0 ≤ c then (CHARS ++ [0]).get? c.toNat else none

/-- The loop `for (i = 0; i < plaintextLen; i++)` of `encode`, from index `i`
with `todo` iterations left; the result lists the bytes stored in
`encryptedText[i], encryptedText[i+1], ...` in order. -/
def encodeFrom (plaintext key : List Nat) (i : Nat) : Nat → Option (List Nat)
  | 0 => some []
  | todo + 1 =>
    match encodeAt plaintext key i with
    | none => none
    | some c =>
      match encodeFrom plaintext key (i + 1) todo with
      | none => none
      | some rest => some (c :: rest)

/-- The function `encode`: the bytes written to `encryptedText[0 .. strlen(plaintext))`. -/
def encode (plaintext key : List Nat) : Option (List Nat) :=
  encodeFrom plaintext key 0 (strlen plaintext)

/-! ## String functions of the C library -/

/-- The first index at which `needle` occurs in `hay`, if it occurs. -/
def findSub (needle : List Nat) : List Nat → Option Nat
  | [] => if needle.isPrefixOf [] then some 0 else none
  | c :: rest =>
    if needle.isPrefixOf (c :: rest) then some 0
    else (findSub needle rest).map (fun k => k + 1)

/-- The function `strstr` on a zero-filled buffer: the offset of the first
occurrence of `needle` in the C string of `haystack`, `none` for `NULL`. -/
def strstr (haystack needle : List Nat) : Option Nat := findSub needle (cstr haystack)

/-- The function `strcspn`: the length of the longest prefix of the C string
of `s` without a byte of `reject`. -/
def strcspn (s reject : List Nat) : Nat :=
  ((cstr s).takeWhile (fun c => !(reject.contains c))).length

/-- The function `strncpy` into a zero-filled buffer: at most `n` bytes of the
C string of `src` (the padding it writes is `0`, as the buffer already is). -/
def strncpy (src : List Nat) (n : Nat) : List Nat := (cstr src).take n

/-- The function `strcat`: the C string of `dest` followed by that of `src`. -/
def strcat (dest src : List Nat) : List Nat := cstr dest ++ cstr src

/-- The function `strncat`: the C string of `dest` followed by at most `n`
bytes of that of `src`. -/
def strncat (dest src : List Nat) (n : Nat) : List Nat := cstr dest ++ (cstr src).take n

/-! ## Outcomes of the transport functions -/

/-- How a transport function ends: it returns (`done`), it leaves the process
through `error()` (`fatal`, with the message), or the bound on the number of
loop iterations of the embedding is used up (`outOfFuel`). -/
inductive Res (α : Type) where
  | done (a : α)
  | fatal (msg : String)
  | outOfFuel
  deriving Repr, DecidableEq

/-! ## `sendMsg` (otpshared.c) -/

/-- One call `send(socketFD, ptr, maxSendBytes, 0)` of `sendMsg`: the offset
`ptr - buffer`, the size requested and the count `send` returned. -/
structure SendCall where
  offset : Nat
  requested : Nat
  sent : Nat
  deriving Repr, DecidableEq

/-- The `while (totalCharsSent < bytesToSend)` loop of `sendMsg`. The `call`-th
`send` is offered `accept call` bytes by the socket: a negative offer is a
failed `send`, otherwise `send` returns the offer cut down to the size
requested. The result is the list of the `send` calls made. -/
def sendLoop (bytesToSend : Nat) (accept : Nat → Int) :
    Nat → Nat → Nat → Nat → List SendCall → Res (List SendCall)
  | 0, _, totalCharsSent, _, calls =>
    if totalCharsSent < bytesToSend then Res.outOfFuel else Res.done calls
  | fuel + 1, call, totalCharsSent, maxSendBytes, calls =>
    if totalCharsSent < bytesToSend then
      if accept call < 0 then Res.fatal "ERROR writing to socket"
      else
        let charsSent := min (accept call).toNat maxSendBytes
        if charsSent = 0 then Res.fatal "Unexpected EOF"
        else
          let totalCharsSent1 := totalCharsSent + charsSent
          let remainingBytes := bytesToSend - totalCharsSent1
          let maxSendBytes1 :=
            if remainingBytes < maxSendBytes ∧ totalCharsSent1 < bytesToSend
            then remainingBytes else maxSendBytes
          sendLoop bytesToSend accept fuel (call + 1) totalCharsSent1 maxSendBytes1
            (calls ++ [⟨totalCharsSent, maxSendBytes, charsSent⟩])
    else Res.done calls

/-- The function `sendMsg`, up to the end of its sending loop: the `send`
calls it makes for `buffer`. Every iteration that does not leave through
`error()` sends at least one byte, so `strlen(buffer)` iterations suffice. The
wait on `ioctl(TIOCOUTQ)` that follows transmits nothing; it is `drainWait`, and
the function up to its return is `sendMsgWhole`. -/
def sendMsg (buffer : List Nat) (accept : Nat → Int) : Res (List SendCall) :=
  let bytesToSend := strlen buffer
  let maxSendBytes := if bytesToSend < 1000 then bytesToSend else 1000
  sendLoop bytesToSend accept bytesToSend 0 0 maxSendBytes []

/-- The bytes a list of `send` calls puts on the stream, in order. -/
def wireBytes (buffer : List Nat) (calls : List SendCall) : List Nat :=
  calls.flatMap (fun c => (buffer.drop c.offset).take c.sent)

/-- The wait of `sendMsg` after its sending loop:
`do { ioctl(socketFD, TIOCOUTQ, &checkSend); } while (checkSend > 0);` and then
`if (checkSend < 0) error("ioctl error")`. `outq n` is the value `checkSend` holds
after the `n`-th `ioctl`: the number of bytes still in the send queue of the
socket, or what `checkSend` held before when the `ioctl` fails (`-5` at the
first call). `polls` bounds the number of `ioctl` calls of the embedding. -/
def drainWait (outq : Nat → Int) : Nat → Nat → Res Unit
  | 0, _ => Res.outOfFuel
  | polls + 1, n =>
    if outq n > 0 then drainWait outq polls (n + 1)
    else if outq n < 0 then Res.fatal "ioctl error"
    else Res.done ()

/-- The function `sendMsg` up to its return: the sending loop, then the wait
until the send queue of the socket is empty. The result is the list of the
`send` calls made. -/
def sendMsgWhole (buffer : List Nat) (accept : Nat → Int) (outq : Nat → Int)
    (polls : Nat) : Res (List SendCall) :=
  match sendMsg buffer accept with
  | Res.outOfFuel => Res.outOfFuel
  | Res.fatal msg => Res.fatal msg
  | Res.done calls =>
    match drainWait outq polls 0 with
    | Res.outOfFuel => Res.outOfFuel
    | Res.fatal msg => Res.fatal msg
    | Res.done _ => Res.done calls

/-! ## `recMsg` (otpshared.c) -/

/-- The `while (totalCharsRec < bytesToReceive && strstr(buffer, "@END@") == NULL)`
loop of `recMsg`. `stream` holds the bytes still to arrive on the socket, and
the `call`-th `recv` is offered `offer call` of them: a negative offer is a
failed `recv`, otherwise `recv` returns the offer cut down to the size
requested and to what the stream still holds (nothing left is the peer's
end of file). `buffer` is the part of the zero-filled buffer written so far,
`buffer[0 .. totalCharsRec)`. The result is the buffer and `totalCharsRec`. -/
def recLoop (bytesToReceive : Nat) (offer : Nat → Int) :
    Nat → Nat → List Nat → Nat → Nat → List Nat → Res (List Nat × Nat)
  | 0, _, _, totalCharsRec, _, buffer =>
    if totalCharsRec < bytesToReceive ∧ strstr buffer END_DELIMITER = none
    then Res.outOfFuel else Res.done (buffer, totalCharsRec)
  | fuel + 1, call, stream, totalCharsRec, maxRecBytes, buffer =>
    if totalCharsRec < bytesToReceive ∧ strstr buffer END_DELIMITER = none then
      if offer call < 0 then Res.fatal "ERROR receiving from socket"
      else
        let charsRec := min (min (offer call).toNat maxRecBytes) stream.length
        if charsRec = 0 then Res.fatal "RECMSG: Unexpected EOF"
        else
          let totalCharsRec1 := totalCharsRec + charsRec
          let remainingBytes := bytesToReceive - totalCharsRec1
          let maxRecBytes1 :=
            if remainingBytes < maxRecBytes ∧ totalCharsRec1 < bytesToReceive
            then remainingBytes else maxRecBytes
          recLoop bytesToReceive offer fuel (call + 1) (stream.drop charsRec)
            totalCharsRec1 maxRecBytes1 (buffer ++ stream.take charsRec)
    else Res.done (buffer, totalCharsRec)

/-- The function `recMsg` on a zero-filled buffer: the bytes it leaves in
`buffer[0 .. totalCharsRec)` and the count `totalCharsRec` of bytes it took
from the stream. A `bytesToReceive` that is not positive never enters the
loop, like the count 0. Every iteration that does not leave through `error()`
receives at least one byte, so `bytesToReceive` iterations suffice. -/
def recMsg (bytesToReceive : Int) (stream : List Nat) (offer : Nat → Int) :
    Res (List Nat × Nat) :=
  let n := bytesToReceive.toNat
  let maxRecBytes := if n < 1000 then n else 1000
  recLoop n offer n 0 stream 0 maxRecBytes []

/-! ## `validateStr` (otpshared.c) -/

/-- The loop of `validateStr` over the characters `str[i], str[i+1], ...` still
to visit. (Whether `char` is signed or not, a byte above 127 fails both range
tests the same way: it is not the space, so the result is 0.) -/
def validateFrom : List Nat → Int
  | [] => 1
  | c :: rest =>
    if c < 65 ∨ c > 90 then
      if c = 32 then validateFrom rest else 0
    else validateFrom rest

/-- The function `validateStr`. -/
def validateStr (str : List Nat) : Int := validateFrom (cstr str)

/-! ## `getAck` and `sendAck` (otpshared.c) -/

/-- The `while (strstr(ack, "ACK") == NULL)` loop of `getAck`. `mem` is the
memory at `ack`: the three bytes of `char ack[3]` and the byte after the array.
The request size `sizeof(ack) + 1` lets `recv` store a fourth byte there, one
past the array, as it does with the four bytes `sendAck` sends; the embedding
keeps that byte as the fourth byte of `mem` and takes the byte after it as `0`.
`recvs n` is the data the `n`-th `recv` delivers (no data when it fails or
returns 0); `seconds` counts the `recv` calls made. The result is the value
returned and the number of `recv` calls. -/
def getAckLoop (recvs : Nat → List Nat) : Nat → Nat → List Nat → Res (Int × Nat)
  | 0, seconds, mem =>
    if strstr mem ACK = none then Res.outOfFuel else Res.done (1, seconds)
  | fuel + 1, seconds, mem =>
    if strstr mem ACK = none then
      let data := (recvs seconds).take 4
      let mem1 := data ++ mem.drop data.length
      let seconds1 := seconds + 1
      if seconds1 > 2 then Res.done (0, seconds1)
      else getAckLoop recvs fuel seconds1 mem1
    else Res.done (1, seconds)

/-- The function `getAck`: `ack` is zero-filled, the byte after it holds `adj`.
The loop body runs at most three times, since the third run returns. -/
def getAck (adj : Nat) (recvs : Nat → List Nat) : Res (Int × Nat) :=
  getAckLoop recvs 3 0 [0, 0, 0, adj]

/-- The function `sendAck`: the bytes it passes to `send`, which are the
`sizeof(ack)` bytes of `char ack[] = "ACK"`. -/
def sendAck : List Nat := ACK ++ [0]

/-! ## `atoi` and `sprintf("%i")` -/

/-- The C function `isspace` (in the "C" locale). -/
def isspace (c : Nat) : Bool := c == 32 || (9 ≤ c && c ≤ 13)

/-- The digit loop of `atoi`: the value of the leading decimal digits. -/
def atoiDigits : Nat → List Nat → Nat
  | acc, [] => acc
  | acc, c :: rest =>
    if 48 ≤ c ∧ c ≤ 57 then atoiDigits (acc * 10 + (c - 48)) rest else acc

/-- The conversion of a `long` to `int`: the low 32 bits, as a signed number. -/
def toInt32 (v : Int) : Int := (v + 2147483648) % 4294967296 - 2147483648

/-- The cut of a value to the range of a 64-bit `long`, as `strtol` makes it. -/
def clampLong (v : Int) : Int :=
  max (-9223372036854775808) (min v 9223372036854775807)

/-- The C function `atoi` on the C string of `s`: white space, an optional
sign, then decimal digits. The result is an `int`: for a number outside its
range, where the C standard leaves the value open, it is what
`(int) strtol(s, NULL, 10)` gives, the number cut to the range of `long` and
then converted to `int`. -/
def atoi (s : List Nat) : Int :=
  toInt32 (clampLong
    (match (cstr s).dropWhile isspace with
    | 45 :: ds => -((atoiDigits 0 ds : Nat) : Int)
    | 43 :: ds => ((atoiDigits 0 ds : Nat) : Int)
    | ds => ((atoiDigits 0 ds : Nat) : Int)))

/-- The decimal digits of `n` put in front of `acc`; `fuel` bounds the number
of digits. -/
def decimalAux : Nat → Nat → List Nat → List Nat
  | 0, _, acc => acc
  | fuel + 1, n, acc =>
    if n < 10 then (n + 48) :: acc
    else decimalAux fuel (n / 10) ((n % 10 + 48) :: acc)

/-- The text `sprintf(.., "%i", n)` writes for an `int` `n`. -/
def sprintfInt (n : Int) : List Nat :=
  if n < 0 then 45 :: decimalAux (n.natAbs + 1) n.natAbs []
  else decimalAux (n.natAbs + 1) n.natAbs []

/-! ## Runs of the two programs -/

/-- What a program does to the outside world, in order. -/
inductive Event where
  | gethostbyname
  | socket
  | connect
  | sendMsg (buffer : List Nat) (calls : List SendCall)
  | sendAck (bytes : List Nat)
  | getAck (result : Int) (recvs : Nat)
  | recMsg (buffer : List Nat) (totalCharsRec : Nat)
  | printf (line : List Nat)
  | shutdown
  | close
  deriving Repr, DecidableEq

/-- The store `buf[k] = '\0'` into a zero-filled buffer of which `buf` is the
part written so far. -/
def zeroAt (buf : List Nat) (k : Nat) : List Nat :=
  if k < buf.length then buf.set k 0 else buf

/-! ## The connection handler of the daemon (oneTimePadEncryptServer.c) -/

/-- The split of the received payload: `keyStart = strstr(msgBuffer, KEY_DELIMITER)`,
`keyStart[0] = '\0'`, then `strncpy(keyBuffer, keyStart + DELIMITER_SIZE,
strlen(msgBuffer))`. The result is `msgBuffer` (now ending at the delimiter) and
`keyBuffer`; `none` when `strstr` returns `NULL`, which the daemon dereferences. -/
def splitPayload (msgBuffer : List Nat) : Option (List Nat × List Nat) :=
  match strstr msgBuffer KEY_DELIMITER with
  | none => none
  | some keyStart =>
    let msgBuffer1 := zeroAt msgBuffer keyStart
    let keyBuffer := strncpy (msgBuffer1.drop (keyStart + DELIMITER_SIZE)) (strlen msgBuffer1)
    some (msgBuffer1, keyBuffer)

/-- The buffer `encryptedText` the daemon passes to `sendMsg`: the output of
`encode` on the split payload, with `strcat(encryptedText, END_CODE)`. -/
def serverReply (msgBuffer : List Nat) : Option (List Nat) :=
  match splitPayload msgBuffer with
  | none => none
  | some (plaintext, keyBuffer) =>
    match encode plaintext keyBuffer with
    | none => none
    | some encryptedText => some (strcat encryptedText END_DELIMITER)

/-- The child branch of the daemon's `main` on one connection. `ctrl` is what
the first `recv` delivers, `stream` the bytes that arrive after it, `offer` and
`accept` the sizes the socket offers to the later `recv` and `send` calls. The
result is the events of the run and the exit status; the status is `none` when
the run leaves defined behaviour after these events (a control message that
fills `msgSize` without a `0` byte, a payload that fills `msgBuffer`, a payload
without the key delimiter, a symbol `encode` cannot index). The run is
followed through the sending loop of each `sendMsg`; the wait for the send
queue that ends `sendMsg` (`drainWait`) is taken to end. -/
def connectionHandler (ctrl stream : List Nat) (offer accept : Nat → Int) :
    List Event × Option Int :=
  let msgSize := ctrl.take SECRETCODESIZE
  if msgSize.length = SECRETCODESIZE ∧ 0 ∉ msgSize then ([], none)
  else if strstr msgSize SECRETCODE = none then
    ([Event.shutdown, Event.close], some 1)
  else
    let bytesToRead := atoi (msgSize.drop SECRET_MSG_SIZE)
    match recMsg bytesToRead stream offer with
    | Res.outOfFuel => ([Event.sendAck sendAck], none)
    | Res.fatal _ => ([Event.sendAck sendAck], some 0)
    | Res.done (msgBuffer, total) =>
      if MAX_MSG_SIZE ≤ total then ([Event.sendAck sendAck], none)
      else
        match serverReply msgBuffer with
        | none => ([Event.sendAck sendAck, Event.recMsg msgBuffer total], none)
        | some encryptedText =>
          match sendMsg encryptedText accept with
          | Res.outOfFuel =>
            ([Event.sendAck sendAck, Event.recMsg msgBuffer total], none)
          | Res.fatal _ =>
            ([Event.sendAck sendAck, Event.recMsg msgBuffer total], some 0)
          | Res.done calls =>
            ([Event.sendAck sendAck, Event.recMsg msgBuffer total,
              Event.sendMsg encryptedText calls, Event.shutdown, Event.close], some 0)

/-! ## The client (oneTimePadEncryptClient.c) -/

/-- The string `fullStr` of the client: `(plaintext)@ENC@(key)@END@`, the key cut
to `msgLen = strlen(buffer)` bytes by `strncat`. `none` when the size
`fullStrLen` passed to `malloc` leaves the range of a 32-bit `int`. -/
def buildFullStr (buffer keybuffer : List Nat) : Option (List Nat) :=
  let fullStrLen := strlen buffer + DELIMITER_SIZE + strlen buffer + DELIMITER_SIZE + 1
  let msgLen := strlen buffer
  if 2 ^ 31 ≤ fullStrLen then none
  else
    some (strcat (strncat (strcat (strcat [] buffer) KEY_DELIMITER) keybuffer msgLen)
      END_DELIMITER)

/-- The string `codeSize` of the client: `SECRET_KEY` followed by the text
`sprintf(encSize, "%i", fullStrLen)` writes for `fullStrLen = strlen(fullStr)`. -/
def buildCode (fullStr : List Nat) : List Nat :=
  strcat (strcat [] SECRETCODE) (sprintfInt (strlen fullStr))

/-- The reply part of the client: `recMsg(buf, enclen, socketFD)` with
`enclen = msgLen + END_CODE_MSG_SIZE` into the zero-filled `char buf[MAX_MSG_SIZE]`,
then the strip `buf[strcspn(buffer, END_CODE)] = '\0'`, where `buffer` holds the
plaintext. The result is `buf` as `recMsg` left it, the count received, and the
string `printf("%s\n", buf)` prints after the strip; it is `none` when `recMsg`
has received more than the `MAX_MSG_SIZE` bytes `buf` can hold, that is when it
has written past the array. -/
def receiveReply (buffer reply : List Nat) (offer : Nat → Int) :
    Option (Res (List Nat × Nat × List Nat)) :=
  let msgLen := strlen buffer
  let enclen : Int := (msgLen : Int) + END_CODE_MSG_SIZE
  match recMsg enclen reply offer with
  | Res.outOfFuel => some Res.outOfFuel
  | Res.fatal msg => some (Res.fatal msg)
  | Res.done (buf, total) =>
    if MAX_MSG_SIZE < total then none
    else some (Res.done (buf, total, cstr (zeroAt buf (strcspn buffer CLIENT_END_CODE))))

/-- What the outside world does in a run of the client. -/
structure ClientEnv where
  hostFound : Bool
  socketOk : Bool
  connectOk : Bool
  acceptCode : Nat → Int
  adj : Nat
  acks : Nat → List Nat
  acceptPayload : Nat → Int
  reply : List Nat
  offer : Nat → Int

/-- The function `main` of the client from the point where the connection
stands: it builds `fullStr` and the control code, sends the code, waits for the
acknowledgement, and on `confirm == 1` sends `fullStr`, receives the reply and
prints it. The result is the events from there on and the exit status; the
status is `none` when the run leaves defined behaviour after these events. The
run is followed through the sending loop of each `sendMsg`; the wait for the
send queue that ends `sendMsg` (`drainWait`) is taken to end. -/
def clientSession (buffer keybuffer : List Nat) (env : ClientEnv) :
    List Event × Option Int :=
  match buildFullStr buffer keybuffer with
  | none => ([], none)
  | some fullStr =>
    let codeSize := buildCode fullStr
    if SECRETCODESIZE < codeSize.length + 1 then ([], none)
    else
      match sendMsg codeSize env.acceptCode with
      | Res.outOfFuel => ([], none)
      | Res.fatal _ => ([], some 0)
      | Res.done codeCalls =>
        match getAck env.adj env.acks with
        | Res.outOfFuel => ([Event.sendMsg codeSize codeCalls], none)
        | Res.fatal _ => ([Event.sendMsg codeSize codeCalls], none)
        | Res.done (confirm, n) =>
          let pre := [Event.sendMsg codeSize codeCalls, Event.getAck confirm n]
          if confirm = 1 then
            match sendMsg fullStr env.acceptPayload with
            | Res.outOfFuel => (pre, none)
            | Res.fatal _ => (pre, some 0)
            | Res.done calls =>
              match receiveReply buffer env.reply env.offer with
              | none => (pre ++ [Event.sendMsg fullStr calls], none)
              | some Res.outOfFuel => (pre ++ [Event.sendMsg fullStr calls], none)
              | some (Res.fatal _) => (pre ++ [Event.sendMsg fullStr calls], some 0)
              | some (Res.done (buf, total, line)) =>
                (pre ++ [Event.sendMsg fullStr calls, Event.recMsg buf total,
                  Event.printf line, Event.shutdown, Event.close], some 0)
          else (pre ++ [Event.shutdown, Event.close], some 0)

/-- The function `main` of the client, from the two strings `processFile`
returned: the validation of both, the key length check, the host lookup, the
socket and the connection, then `clientSession`. The result is the events of
the run and the exit status. -/
def clientMain (buffer keybuffer : List Nat) (env : ClientEnv) :
    List Event × Option Int :=
  if validateStr buffer = 0 then ([], some 1)
  else if validateStr keybuffer = 0 then ([], some 1)
  else if strlen keybuffer < strlen buffer then ([], some 1)
  else if env.hostFound = false then ([Event.gethostbyname], some 0)
  else if env.socketOk = false then ([Event.gethostbyname, Event.socket], some 0)
  else if env.connectOk = false then
    ([Event.gethostbyname, Event.socket, Event.connect], some 0)
  else
    ([Event.gethostbyname, Event.socket, Event.connect]
      ++ (clientSession buffer keybuffer env).1, (clientSession buffer keybuffer env).2)

/-! ## Theorems -/

theorem cstr_eq_self (s : List Nat) (h : ∀ c ∈ s, c ≠ 0) : cstr s = s := by
  unfold cstr
  rw [List.takeWhile_eq_self_iff]
  intro c hc
  simpa using h c hc

theorem isAlphabet_ne_zero {c : Nat} (h : isAlphabet c) : c ≠ 0 := by
  unfold isAlphabet at h; omega

theorem cstr_alphabet (s : List Nat) (h : ∀ c ∈ s, isAlphabet c) : cstr s = s :=
  cstr_eq_self s (fun c hc => isAlphabet_ne_zero (h c hc))

theorem strlen_alphabet (s : List Nat) (h : ∀ c ∈ s, isAlphabet c) :
    strlen s = s.length := by
  unfold strlen; rw [cstr_alphabet s h]

theorem alphabetIndex_eq {c : Nat} (h : isAlphabet c) :
    alphabetIndex c = if c = 32 then 26 else c - 65 := by
  unfold isAlphabet at h
  rcases h with ⟨h1, h2⟩ | h
  · interval_cases c <;> decide
  · subst h; decide

theorem alphabetIndex_lt {c : Nat} (h : isAlphabet c) : alphabetIndex c < 27 := by
  rw [alphabetIndex_eq h]; unfold isAlphabet at h; split <;> omega

theorem byteAt_eq_of_lt (s : List Nat) (i : Nat) (h : i < s.length) :
    byteAt s i = s.get ⟨i, h⟩ := by
  unfold byteAt
  simp [List.getD_eq_getElem?_getD, List.getElem?_eq_getElem h]

theorem CHARS_get?_isAlphabet (n c : Nat) (h : CHARS.get? n = some c) : isAlphabet c := by
  have hn : n < 27 := by
    have := List.get?_eq_some.mp h
    obtain ⟨hlt, _⟩ := this
    simpa [CHARS] using hlt
  interval_cases n <;> simp [CHARS] at h <;> subst h <;> decide

/-- For two alphabet symbols the loop body of `encode` stores
`CHARS[(a + b) mod 27]`, with `a`, `b` their alphabet indices. -/
theorem encodeAt_alphabet (plaintext key : List Nat) (i : Nat)
    (hp : isAlphabet (byteAt plaintext i)) (hk : isAlphabet (byteAt key i)) :
    encodeAt plaintext key i =
      CHARS.get? ((alphabetIndex (byteAt plaintext i) + alphabetIndex (byteAt key i)) % 27) := by
  unfold encodeAt
  generalize byteAt plaintext i = p at *
  generalize byteAt key i = k at *
  have ha := alphabetIndex_eq hp
  have hb := alphabetIndex_eq hk
  have hla := alphabetIndex_lt hp
  have hlb := alphabetIndex_lt hk
  have hA : (if p = 32 then (26 : Int) else (p : Int) - 65) = ((alphabetIndex p : Nat) : Int) := by
    rw [ha]; unfold isAlphabet at hp; split <;> omega
  have hB : (if k = 32 then (26 : Int) else (k : Int) - 65) = ((alphabetIndex k : Nat) : Int) := by
    rw [hb]; unfold isAlphabet at hk; split <;> omega
  simp only [hA, hB]
  have hc : Int.tmod ((alphabetIndex p : Int) + (alphabetIndex k : Int)) 27
      = (((alphabetIndex p + alphabetIndex k) % 27 : Nat) : Int) := by
    rw [Int.tmod_eq_emod (by omega) (by omega)]
    push_cast; rfl
  rw [hc]
  simp only [Int.toNat_ofNat]
  have hlt : (alphabetIndex p + alphabetIndex k) % 27 < CHARS.length := by
    simp only [CHARS, List.length_cons, List.length_nil]; omega
  rw [if_pos (by omega)]
  simp only [List.get?_eq_getElem?]
  rw [List.getElem?_append_left hlt]

/-- The loop of `encode` runs to its end when every iteration stays inside
`charset`, and then lists the bytes of the iterations in order. -/
theorem encodeFrom_some (plaintext key : List Nat) :
    ∀ (todo i : Nat),
      (∀ j, j < todo → (encodeAt plaintext key (i + j)).isSome) →
      ∃ out, encodeFrom plaintext key i todo = some out ∧ out.length = todo ∧
        ∀ j, j < todo → out.get? j = encodeAt plaintext key (i + j) := by
  intro todo
  induction todo with
  | zero =>
    intro i _
    exact ⟨[], rfl, rfl, fun j hj => absurd hj (Nat.not_lt_zero j)⟩
  | succ n ih =>
    intro i h
    have h0 := h 0 (Nat.succ_pos n)
    obtain ⟨c, hc⟩ := Option.isSome_iff_exists.mp h0
    rw [Nat.add_zero] at hc
    obtain ⟨rest, hrest, hlen, hget⟩ := ih (i + 1) (fun j hj => by
      have := h (j + 1) (Nat.succ_lt_succ hj)
      rwa [show i + (j + 1) = i + 1 + j by omega] at this)
    refine ⟨c :: rest, ?_, by simp [hlen], ?_⟩
    · simp only [encodeFrom, hc, hrest]
    · intro j hj
      cases j with
      | zero => simp [hc]
      | succ j =>
        have := hget j (Nat.lt_of_succ_lt_succ hj)
        rw [show i + (j + 1) = i + 1 + j by omega]
        simpa using this

/-- On an alphabet-only plaintext and a key at least as long, `encode` runs to
its end and stores `CHARS[(a + b) mod 27]` at every position. -/
theorem encode_on_alphabet (P K : List Nat)
    (hP : ∀ c ∈ P, isAlphabet c) (hK : ∀ c ∈ K, isAlphabet c)
    (hlen : P.length ≤ K.length) :
    ∃ out, encode P K = some out ∧ out.length = P.length ∧
      (∀ i, i < P.length → out.get? i =
        CHARS.get? ((alphabetIndex (byteAt P i) + alphabetIndex (byteAt K i)) % 27)) ∧
      (∀ i, i < P.length →
        (alphabetIndex (byteAt P i) + alphabetIndex (byteAt K i)) % 27 < CHARS.length) ∧
      ∀ c ∈ out, isAlphabet c := by
  have hPi : ∀ i, i < P.length → isAlphabet (byteAt P i) := fun i hi => by
    rw [byteAt_eq_of_lt P i hi]; exact hP _ (List.get_mem _ _ _)
  have hKi : ∀ i, i < P.length → isAlphabet (byteAt K i) := fun i hi => by
    rw [byteAt_eq_of_lt K i (by omega)]; exact hK _ (List.get_mem _ _ _)
  have hidx : ∀ i, i < P.length →
      (alphabetIndex (byteAt P i) + alphabetIndex (byteAt K i)) % 27 < CHARS.length := by
    intro i _
    simp only [CHARS, List.length_cons, List.length_nil]; omega
  have hAt : ∀ i, i < P.length → encodeAt P K i =
      CHARS.get? ((alphabetIndex (byteAt P i) + alphabetIndex (byteAt K i)) % 27) :=
    fun i hi => encodeAt_alphabet P K i (hPi i hi) (hKi i hi)
  obtain ⟨out, hout, hl, hget⟩ := encodeFrom_some P K P.length 0 (fun j hj => by
    rw [Nat.zero_add, hAt j hj, List.get?_eq_getElem?, List.getElem?_eq_getElem (hidx j hj)]
    rfl)
  refine ⟨out, ?_, hl, ?_, hidx, ?_⟩
  · unfold encode; rw [strlen_alphabet P hP]; exact hout
  · intro i hi
    rw [hget i hi, Nat.zero_add, hAt i hi]
  · intro c hc
    obtain ⟨n, hn⟩ := List.get?_of_mem hc
    have hnl : n < P.length := by
      have := (List.get?_eq_some.mp hn).1; omega
    rw [hget n hnl, Nat.zero_add, hAt n hnl] at hn
    exact CHARS_get?_isAlphabet _ c hn

/-- C1: for an alphabet-only plaintext `P` and key `K` with `len(K) ≥ len(P)`,
`encode` writes exactly `len(P)` symbols, the `i`-th one being
`CHARS[(a + b) mod 27]` for the alphabet indices `a`, `b` of `P[i]`, `K[i]`, and
every written symbol is in the alphabet. -/
theorem encode_alphabet_spec (P K : List Nat)
    (hP : ∀ c ∈ P, isAlphabet c) (hK : ∀ c ∈ K, isAlphabet c)
    (hlen : P.length ≤ K.length) :
    ∃ out, encode P K = some out ∧ out.length = P.length ∧
      (∀ i, i < P.length → out.get? i =
        CHARS.get? ((alphabetIndex (byteAt P i) + alphabetIndex (byteAt K i)) % 27)) ∧
      (∀ i, i < P.length →
        (alphabetIndex (byteAt P i) + alphabetIndex (byteAt K i)) % 27 < CHARS.length) ∧
      ∀ c ∈ out, isAlphabet c :=
  encode_on_alphabet P K hP hK hlen

/-- C1 at a concrete input: plaintext `"HI Z"`, key `"AB ZQ"`. -/
theorem encode_alphabet_spec_witness :
    ∃ out, encode [72, 73, 32, 90] [65, 66, 32, 90, 81] = some out ∧
      out.length = [72, 73, 32, 90].length ∧
      (∀ i, i < [72, 73, 32, 90].length → out.get? i =
        CHARS.get? ((alphabetIndex (byteAt [72, 73, 32, 90] i)
          + alphabetIndex (byteAt [65, 66, 32, 90, 81] i)) % 27)) ∧
      (∀ i, i < [72, 73, 32, 90].length →
        (alphabetIndex (byteAt [72, 73, 32, 90] i)
          + alphabetIndex (byteAt [65, 66, 32, 90, 81] i)) % 27 < CHARS.length) ∧
      ∀ c ∈ out, isAlphabet c :=
  encode_alphabet_spec [72, 73, 32, 90] [65, 66, 32, 90, 81]
    (by decide) (by decide) (by decide)

/-- C10 as stated fails: `encode("A", "A")` is not `"B"`. -/
theorem encode_A_A_ne_B : encode [65] [65] ≠ some [66] := by decide

/-- C10, amended: `encode` applied to plaintext `"A"` and key `"A"` writes the
ciphertext `"A"` (index 0 + index 0 = 0). -/
theorem encode_A_A : encode [65] [65] = some [65] := by decide

/-! ### Searching a string -/

theorem findSub_at_prefix (needle rest : List Nat) :
    findSub needle (needle ++ rest) = some 0 := by
  have hp : needle.isPrefixOf (needle ++ rest) = true :=
    List.isPrefixOf_iff_prefix.mpr (List.prefix_append needle rest)
  cases h : needle ++ rest with
  | nil => rw [h] at hp; simp [findSub, hp]
  | cons c t => rw [h] at hp; simp [findSub, hp]

/-- A needle that starts with a byte absent from `pre` is first found right
after `pre`. -/
theorem findSub_skip (a : Nat) (ns pre rest : List Nat) (h : a ∉ pre) :
    findSub (a :: ns) (pre ++ (a :: ns) ++ rest) = some pre.length := by
  induction pre with
  | nil => simpa using findSub_at_prefix (a :: ns) rest
  | cons c pre ih =>
    have hc : a ≠ c := fun e => h (by simp [e])
    have hpre : a ∉ pre := fun e => h (by simp [e])
    have hnp : (a :: ns).isPrefixOf (c :: (pre ++ (a :: ns) ++ rest)) = false := by
      simp [List.isPrefixOf, hc]
    have hih := ih hpre
    simp only [List.cons_append, List.append_assoc] at hih hnp ⊢
    simp only [findSub, hnp, hih]
    simp

/-- `findSub` finds nothing exactly when the needle is not a contiguous part
of the string. -/
theorem findSub_eq_none_iff (needle hay : List Nat) :
    findSub needle hay = none ↔ ¬ needle <:+: hay := by
  induction hay with
  | nil =>
    simp only [findSub]
    cases needle with
    | nil => simp
    | cons a t => simp [List.isPrefixOf]
  | cons c t ih =>
    simp only [findSub]
    by_cases hp : needle.isPrefixOf (c :: t) = true
    · simp only [hp, if_true]
      have : needle <:+: c :: t := (List.isPrefixOf_iff_prefix.mp hp).isInfix
      simp [this]
    · simp only [hp, Bool.false_eq_true, if_false, Option.map_eq_none', ih]
      rw [List.infix_cons_iff]
      have : ¬ needle <+: c :: t := fun h => hp (List.isPrefixOf_iff_prefix.mpr h)
      tauto

/-! ### The payload and its split -/

theorem encodeFrom_congr (P K P1 K1 : List Nat) :
    ∀ (todo i : Nat),
      (∀ j, j < todo → byteAt P (i + j) = byteAt P1 (i + j) ∧
        byteAt K (i + j) = byteAt K1 (i + j)) →
      encodeFrom P K i todo = encodeFrom P1 K1 i todo := by
  intro todo
  induction todo with
  | zero => intro i _; rfl
  | succ n ih =>
    intro i h
    have h0 := h 0 (Nat.succ_pos n)
    rw [Nat.add_zero] at h0
    have hrec := ih (i + 1) (fun j hj => by
      have := h (j + 1) (Nat.succ_lt_succ hj)
      rwa [show i + (j + 1) = i + 1 + j by omega] at this)
    have hat : encodeAt P K i = encodeAt P1 K1 i := by
      unfold encodeAt; rw [h0.1, h0.2]
    simp only [encodeFrom, hat, hrec]

theorem byteAt_take (s : List Nat) (n i : Nat) (h : i < n) :
    byteAt (s.take n) i = byteAt s i := by
  unfold byteAt
  simp [List.getD_eq_getElem?_getD, List.getElem?_take, h]

theorem byteAt_append_left (s t : List Nat) (i : Nat) (h : i < s.length) :
    byteAt (s ++ t) i = byteAt s i := by
  unfold byteAt
  simp [List.getD_eq_getElem?_getD, List.getElem?_append_left h]

theorem END_DELIMITER_ne_zero : ∀ c ∈ END_DELIMITER, c ≠ 0 := by decide

theorem KEY_DELIMITER_ne_zero : ∀ c ∈ KEY_DELIMITER, c ≠ 0 := by decide

theorem alphabet_ne_zero (s : List Nat) (h : ∀ c ∈ s, isAlphabet c) : ∀ c ∈ s, c ≠ 0 :=
  fun c hc => isAlphabet_ne_zero (h c hc)

theorem at_not_mem_alphabet (s : List Nat) (h : ∀ c ∈ s, isAlphabet c) : 64 ∉ s := by
  intro hm
  have := h 64 hm
  unfold isAlphabet at this; omega

theorem cstr_append_zero (s t : List Nat) (h : ∀ c ∈ s, c ≠ 0) :
    cstr (s ++ 0 :: t) = s := by
  unfold cstr
  rw [List.takeWhile_append_of_pos (by intro c hc; simpa using h c hc)]
  simp

theorem strcat_eq (s t : List Nat) (hs : ∀ c ∈ s, c ≠ 0) (ht : ∀ c ∈ t, c ≠ 0) :
    strcat s t = s ++ t := by
  unfold strcat; rw [cstr_eq_self s hs, cstr_eq_self t ht]

/-- The composite payload `(plaintext)@ENC@(key)@END@`, and any part of it
that reaches beyond the key, has no `0` byte. -/
theorem payload_ne_zero (P K X : List Nat)
    (hP : ∀ c ∈ P, isAlphabet c) (hK : ∀ c ∈ K, isAlphabet c) (hX : ∀ c ∈ X, c ≠ 0) :
    ∀ c ∈ P ++ KEY_DELIMITER ++ K.take P.length ++ X, c ≠ 0 := by
  intro c hc
  simp only [List.mem_append] at hc
  rcases hc with ((hc | hc) | hc) | hc
  · exact isAlphabet_ne_zero (hP c hc)
  · exact KEY_DELIMITER_ne_zero c hc
  · exact isAlphabet_ne_zero (hK c (List.mem_of_mem_take hc))
  · exact hX c hc

/-- The client's `fullStr` is the plaintext, the key delimiter, the key cut
to the plaintext's length, and the end delimiter. -/
theorem buildFullStr_eq (P K : List Nat)
    (hP : ∀ c ∈ P, isAlphabet c) (hK : ∀ c ∈ K, isAlphabet c)
    (hsize : 2 * P.length + 11 < 2 ^ 31) :
    buildFullStr P K = some (P ++ KEY_DELIMITER ++ K.take P.length ++ END_DELIMITER) := by
  have hPz := alphabet_ne_zero P hP
  have hKz := alphabet_ne_zero K hK
  have hPK : ∀ c ∈ P ++ KEY_DELIMITER, c ≠ 0 := by
    intro c hc
    rcases List.mem_append.mp hc with hc | hc
    · exact hPz c hc
    · exact KEY_DELIMITER_ne_zero c hc
  unfold buildFullStr
  simp only [strlen_alphabet P hP, DELIMITER_SIZE]
  rw [if_neg (by omega)]
  have h1 : strcat [] P = P := by simpa using strcat_eq [] P (by simp) hPz
  have h2 : strcat P KEY_DELIMITER = P ++ KEY_DELIMITER :=
    strcat_eq P KEY_DELIMITER hPz KEY_DELIMITER_ne_zero
  have h3 : strncat (P ++ KEY_DELIMITER) K P.length = P ++ KEY_DELIMITER ++ K.take P.length := by
    unfold strncat; rw [cstr_eq_self _ hPK, cstr_eq_self K hKz]
  have h4 : ∀ c ∈ P ++ KEY_DELIMITER ++ K.take P.length, c ≠ 0 := by
    intro c hc
    rcases List.mem_append.mp hc with hc | hc
    · exact hPK c hc
    · exact hKz c (List.mem_of_mem_take hc)
  rw [h1, h2, h3, strcat_eq _ _ h4 END_DELIMITER_ne_zero]

/-- The daemon's split of the composite payload, or of a part of it that
reaches beyond the key: the plaintext is what stands before the key delimiter,
the key is what follows it, cut to the plaintext's length. -/
theorem splitPayload_payload (P K X : List Nat)
    (hP : ∀ c ∈ P, isAlphabet c) (hK : ∀ c ∈ K, isAlphabet c)
    (hlen : P.length ≤ K.length) (hX : ∀ c ∈ X, c ≠ 0) :
    ∃ msgBuffer1,
      splitPayload (P ++ KEY_DELIMITER ++ K.take P.length ++ X)
        = some (msgBuffer1, K.take P.length) ∧
      cstr msgBuffer1 = P ∧ ∀ i, i < P.length → byteAt msgBuffer1 i = byteAt P i := by
  have hPz := alphabet_ne_zero P hP
  have hKz := alphabet_ne_zero K hK
  have hfind : strstr (P ++ KEY_DELIMITER ++ K.take P.length ++ X) KEY_DELIMITER
      = some P.length := by
    unfold strstr
    rw [cstr_eq_self _ (payload_ne_zero P K X hP hK hX)]
    have := findSub_skip 64 [69, 78, 67, 64] P (K.take P.length ++ X)
      (at_not_mem_alphabet P hP)
    simpa [KEY_DELIMITER, List.append_assoc] using this
  have hz : zeroAt (P ++ KEY_DELIMITER ++ K.take P.length ++ X) P.length
      = P ++ 0 :: ([69, 78, 67, 64] ++ K.take P.length ++ X) := by
    unfold zeroAt
    rw [if_pos (by simp [KEY_DELIMITER])]
    simp [KEY_DELIMITER, List.append_assoc, List.set_append]
  have hdrop : (P ++ 0 :: ([69, 78, 67, 64] ++ K.take P.length ++ X)).drop
      (P.length + DELIMITER_SIZE) = K.take P.length ++ X := by
    rw [List.drop_append_eq_append_drop]
    simp [DELIMITER_SIZE]
  refine ⟨P ++ 0 :: ([69, 78, 67, 64] ++ K.take P.length ++ X), ?_, ?_, ?_⟩
  · unfold splitPayload
    rw [hfind]
    simp only [hz, hdrop]
    have hc : cstr (K.take P.length ++ X) = K.take P.length ++ X := by
      apply cstr_eq_self
      intro c hc
      rcases List.mem_append.mp hc with hc | hc
      · exact hKz c (List.mem_of_mem_take hc)
      · exact hX c hc
    unfold strncpy strlen
    rw [hc, cstr_append_zero P _ hPz]
    rw [List.take_append_of_le_length (by simp; omega)]
    simp
  · exact cstr_append_zero P _ hPz
  · intro i hi
    exact byteAt_append_left P _ i hi

/-- The buffer the daemon passes to `sendMsg` for the composite payload, or for
a part of it that reaches beyond the key, is the output of `encode` on the
plaintext and the key, followed by the end code. -/
theorem serverReply_payload (P K X : List Nat)
    (hP : ∀ c ∈ P, isAlphabet c) (hK : ∀ c ∈ K, isAlphabet c)
    (hlen : P.length ≤ K.length) (hX : ∀ c ∈ X, c ≠ 0) :
    ∃ enc, encode P K = some enc ∧ enc.length = P.length ∧ (∀ c ∈ enc, isAlphabet c) ∧
      serverReply (P ++ KEY_DELIMITER ++ K.take P.length ++ X)
        = some (enc ++ END_DELIMITER) := by
  obtain ⟨enc, henc, hl, _, _, halpha⟩ := encode_on_alphabet P K hP hK hlen
  obtain ⟨mb, hsplit, hcstr, hbytes⟩ := splitPayload_payload P K X hP hK hlen hX
  have heq : encode mb (K.take P.length) = encode P K := by
    unfold encode strlen
    rw [hcstr, cstr_alphabet P hP]
    apply encodeFrom_congr
    intro j hj
    rw [Nat.zero_add]
    exact ⟨hbytes j hj, byteAt_take K P.length j hj⟩
  refine ⟨enc, henc, hl, halpha, ?_⟩
  unfold serverReply
  rw [hsplit]
  simp only [heq, henc]
  rw [strcat_eq enc END_DELIMITER (alphabet_ne_zero enc halpha) END_DELIMITER_ne_zero]

/-! ### The sending loop -/

theorem wireBytes_nil (buffer : List Nat) : wireBytes buffer [] = [] := rfl

theorem wireBytes_cons (buffer : List Nat) (c : SendCall) (cs : List SendCall) :
    wireBytes buffer (c :: cs)
      = (buffer.drop c.offset).take c.sent ++ wireBytes buffer cs := by
  simp [wireBytes, List.flatMap_cons]

theorem take_drop_chain (l : List Nat) (t k m : Nat) (hk : k ≤ m) :
    (l.drop t).take k ++ (l.drop (t + k)).take (m - k) = (l.drop t).take m := by
  have h := List.take_add (l.drop t) k (m - k)
  rw [List.drop_drop, Nat.add_sub_cancel' hk] at h
  exact h.symm

/-- With a socket that accepts at least one byte on every `send`, the loop of
`sendMsg` ends, having sent the rest of the message in order; every `send`
starts at the first byte not yet sent and asks for `min(remaining, 1000)`. -/
theorem sendLoop_done (buffer : List Nat) (B : Nat) (accept : Nat → Int)
    (hacc : ∀ n, 1 ≤ accept n) :
    ∀ (fuel call total maxSend : Nat) (calls : List SendCall),
      total ≤ B → B - total ≤ fuel →
      (total < B → maxSend = min (B - total) 1000) →
      ∃ extra, sendLoop B accept fuel call total maxSend calls = Res.done (calls ++ extra) ∧
        wireBytes buffer extra = (buffer.drop total).take (B - total) ∧
        ∀ c ∈ extra, total ≤ c.offset ∧ c.offset < B ∧
          c.requested = min (B - c.offset) 1000 ∧ 1 ≤ c.sent ∧ c.sent ≤ c.requested := by
  intro fuel
  induction fuel with
  | zero =>
    intro call total maxSend calls hle hfuel _
    have : ¬ total < B := by omega
    refine ⟨[], by simp [sendLoop, this], ?_, by simp⟩
    rw [wireBytes_nil, show B - total = 0 by omega, List.take_zero]
  | succ fuel ih =>
    intro call total maxSend calls hle hfuel hmax
    by_cases hlt : total < B
    · have hm := hmax hlt
      have ha := hacc call
      have hk1 : 1 ≤ min (accept call).toNat maxSend := by
        have : 1 ≤ (accept call).toNat := by omega
        omega
      have hk2 : min (accept call).toNat maxSend ≤ maxSend := Nat.min_le_right _ _
      generalize hk : min (accept call).toNat maxSend = k at hk1 hk2
      obtain ⟨extra, hrun, hwire, hcalls⟩ := ih (call + 1) (total + k)
        (if B - (total + k) < maxSend ∧ total + k < B then B - (total + k) else maxSend)
        (calls ++ [⟨total, maxSend, k⟩]) (by omega) (by omega) (by
          intro hlt2
          split <;> omega)
      refine ⟨⟨total, maxSend, k⟩ :: extra, ?_, ?_, ?_⟩
      · simp only [sendLoop, hlt, if_true]
        rw [if_neg (by omega)]
        simp only [hk]
        rw [if_neg (by omega), hrun]
        simp
      · rw [wireBytes_cons, hwire]
        simp only
        rw [show B - (total + k) = (B - total) - k by omega]
        exact take_drop_chain buffer total k (B - total) (by omega)
      · intro c hc
        rcases List.mem_cons.mp hc with hc | hc
        · subst hc
          simp only
          omega
        · obtain ⟨h1, h2, h3, h4, h5⟩ := hcalls c hc
          exact ⟨by omega, h2, h3, h4, h5⟩
    · refine ⟨[], by simp [sendLoop, hlt], ?_, by simp⟩
      rw [wireBytes_nil, show B - total = 0 by omega, List.take_zero]

/-- With a socket that accepts at least one byte on every `send`, `sendMsg`
returns, and the bytes it sent are the C string of the buffer. -/
theorem sendMsg_done (buffer : List Nat) (accept : Nat → Int) (hacc : ∀ n, 1 ≤ accept n) :
    ∃ calls, sendMsg buffer accept = Res.done calls ∧
      wireBytes buffer calls = cstr buffer := by
  obtain ⟨extra, hrun, hwire, _⟩ := sendLoop_done buffer (strlen buffer) accept hacc
    (strlen buffer) 0 0 (if strlen buffer < 1000 then strlen buffer else 1000) []
    (Nat.zero_le _) (by omega) (by intro _; split <;> omega)
  refine ⟨extra, by simpa [sendMsg] using hrun, ?_⟩
  rw [hwire]
  simp only [List.drop_zero, Nat.sub_zero]
  unfold strlen
  exact (List.prefix_iff_eq_take.mp (List.takeWhile_prefix _)).symm

/-! ### The receiving loop -/

/-- With a socket that delivers at least one byte on every `recv`, and
while the end code shows in no part received before the target count is
reached, the loop of `recMsg` ends with exactly the first `n` bytes of the
stream in the buffer, `n` bytes taken. -/
theorem recLoop_done (full : List Nat) (n : Nat) (offer : Nat → Int)
    (hoff : ∀ k, 1 ≤ offer k) (hfull : n ≤ full.length)
    (hno : ∀ k, k < n → strstr (full.take k) END_DELIMITER = none) :
    ∀ (fuel call total maxRec : Nat),
      total ≤ n → n - total ≤ fuel →
      (total < n → maxRec = min (n - total) 1000) →
      recLoop n offer fuel call (full.drop total) total maxRec (full.take total)
        = Res.done (full.take n, n) := by
  intro fuel
  induction fuel with
  | zero =>
    intro call total maxRec hle hfuel _
    have : total = n := by omega
    subst this
    simp [recLoop]
  | succ fuel ih =>
    intro call total maxRec hle hfuel hmax
    by_cases hlt : total < n
    · have hm := hmax hlt
      have ho := hoff call
      have hlen : (full.drop total).length = full.length - total := List.length_drop _ _
      have hk1 : 1 ≤ min (min (offer call).toNat maxRec) (full.drop total).length := by
        have : 1 ≤ (offer call).toNat := by omega
        omega
      have hk2 : min (min (offer call).toNat maxRec) (full.drop total).length ≤ maxRec :=
        Nat.le_trans (Nat.min_le_left _ _) (Nat.min_le_right _ _)
      generalize hk : min (min (offer call).toNat maxRec) (full.drop total).length = k
        at hk1 hk2
      have hstep := ih (call + 1) (total + k)
        (if n - (total + k) < maxRec ∧ total + k < n then n - (total + k) else maxRec)
        (by omega) (by omega) (by intro _; split <;> omega)
      have hbuf : full.take total ++ (full.drop total).take k = full.take (total + k) :=
        (List.take_add full total k).symm
      simp only [recLoop, hlt, hno total hlt, and_self, if_true]
      rw [if_neg (by omega)]
      simp only [hk]
      rw [if_neg (by omega), List.drop_drop, hbuf]
      exact hstep
    · have : total = n := by omega
      subst this
      simp [recLoop]

/-- The statement of `recLoop_done` for `recMsg` itself. -/
theorem recMsg_done (full : List Nat) (n : Nat) (offer : Nat → Int)
    (hoff : ∀ k, 1 ≤ offer k) (hfull : n ≤ full.length)
    (hno : ∀ k, k < n → strstr (full.take k) END_DELIMITER = none) :
    recMsg (n : Int) full offer = Res.done (full.take n, n) := by
  have h := recLoop_done full n offer hoff hfull hno n 0 0
    (if n < 1000 then n else 1000) (Nat.zero_le _) (by omega) (by intro _; split <;> omega)
  simpa [recMsg] using h

theorem strstr_none_of_not_infix (s : List Nat) (hz : ∀ c ∈ s, c ≠ 0)
    (h : ¬ END_DELIMITER <:+: s) : strstr s END_DELIMITER = none := by
  unfold strstr
  rw [cstr_eq_self s hz]
  exact (findSub_eq_none_iff _ _).mpr h

/-- C6 as stated fails. The message `"@END@A"` of length 6, sent whole by
`sendMsg`, is not rebuilt by `recMsg` with target 6 when the first `recv` delivers
5 bytes: the loop stops at the end code with 5 bytes taken. And the message of
the three bytes `'A', 0, 'B'` is not sent whole: `sendMsg` sends one byte. -/
theorem sendMsg_recMsg_not_roundtrip :
    (sendMsg [64, 69, 78, 68, 64, 65] (fun _ => 6) = Res.done [⟨0, 6, 6⟩] ∧
      wireBytes [64, 69, 78, 68, 64, 65] [⟨0, 6, 6⟩] = [64, 69, 78, 68, 64, 65] ∧
      recMsg 6 [64, 69, 78, 68, 64, 65] (fun _ => 5) = Res.done ([64, 69, 78, 68, 64], 5) ∧
      recMsg 6 [64, 69, 78, 68, 64, 65] (fun _ => 5)
        ≠ Res.done ([64, 69, 78, 68, 64, 65], 6)) ∧
    (sendMsg [65, 0, 66] (fun _ => 3) = Res.done [⟨0, 1, 1⟩] ∧
      wireBytes [65, 0, 66] [⟨0, 1, 1⟩] = [65] ∧
      wireBytes [65, 0, 66] [⟨0, 1, 1⟩] ≠ [65, 0, 66]) := by
  decide

/-- C6, amended: for every byte sequence `M` of length `L` that has no `0` byte
and in which the end code `"@END@"` does not occur before the last byte, and for
every way the stream splits the transfer into partial sends and receives of at
least one byte each, `sendMsg(M)` puts exactly the bytes of `M` on the stream, and
`recMsg` with target `L` into a zero-filled buffer leaves exactly `M` in the
buffer, having taken exactly `L` bytes (whatever follows `M` on the stream). -/
theorem sendMsg_recMsg_roundtrip (M trailing : List Nat) (accept offer : Nat → Int)
    (hz : ∀ c ∈ M, c ≠ 0) (hend : ¬ END_DELIMITER <:+: M.dropLast)
    (hacc : ∀ n, 1 ≤ accept n) (hoff : ∀ n, 1 ≤ offer n) :
    ∃ calls, sendMsg M accept = Res.done calls ∧ wireBytes M calls = M ∧
      recMsg (M.length : Int) (wireBytes M calls ++ trailing) offer
        = Res.done (M, M.length) := by
  obtain ⟨calls, hsend, hwire⟩ := sendMsg_done M accept hacc
  rw [cstr_eq_self M hz] at hwire
  refine ⟨calls, hsend, hwire, ?_⟩
  rw [hwire]
  have hrec := recMsg_done (M ++ trailing) M.length offer hoff (by simp) (by
    intro k hk
    have htake : (M ++ trailing).take k = M.take k :=
      List.take_append_of_le_length (Nat.le_of_lt hk)
    rw [htake]
    apply strstr_none_of_not_infix _ (fun c hc => hz c (List.mem_of_mem_take hc))
    intro hin
    apply hend
    have hpre : M.take k <+: M.dropLast := by
      rw [List.dropLast_eq_take, List.prefix_iff_eq_take]
      rw [List.take_take, List.length_take]
      congr 1
      omega
    exact hin.trans hpre.isInfix)
  rw [hrec]
  simp

/-- C6, amended, at a concrete input: the message `"HI@END@"` followed on the
stream by the byte `'Z'`. -/
theorem sendMsg_recMsg_roundtrip_witness :
    ∃ calls, sendMsg [72, 73, 64, 69, 78, 68, 64] (fun _ => 2) = Res.done calls ∧
      wireBytes [72, 73, 64, 69, 78, 68, 64] calls = [72, 73, 64, 69, 78, 68, 64] ∧
      recMsg (([72, 73, 64, 69, 78, 68, 64] : List Nat).length : Int)
        (wireBytes [72, 73, 64, 69, 78, 68, 64] calls ++ [90]) (fun _ => 3)
        = Res.done ([72, 73, 64, 69, 78, 68, 64], ([72, 73, 64, 69, 78, 68, 64] : List Nat).length) :=
  sendMsg_recMsg_roundtrip [72, 73, 64, 69, 78, 68, 64] [90] (fun _ => 2) (fun _ => 3)
    (by decide) (by decide) (fun _ => by norm_num) (fun _ => by norm_num)

/-! ### The reply of the daemon at the client -/

theorem strstr_none_of_count (s : List Nat) (h : s.count 64 < 2) :
    strstr s END_DELIMITER = none := by
  unfold strstr
  rw [findSub_eq_none_iff]
  intro hin
  have h1 : END_DELIMITER.Sublist s :=
    hin.sublist.trans (List.takeWhile_prefix _).sublist
  have h2 := h1.count_le 64
  have h3 : END_DELIMITER.count 64 = 2 := by decide
  omega

theorem count_at_alphabet (s : List Nat) (h : ∀ c ∈ s, isAlphabet c) : s.count 64 = 0 :=
  List.count_eq_zero.mpr (at_not_mem_alphabet s h)

theorem strcspn_alphabet (s : List Nat) (h : ∀ c ∈ s, isAlphabet c) :
    strcspn s CLIENT_END_CODE = s.length := by
  unfold strcspn
  rw [cstr_alphabet s h]
  congr 1
  rw [List.takeWhile_eq_self_iff]
  intro c hc
  have hne : c ≠ 64 := fun e => at_not_mem_alphabet s h (e ▸ hc)
  simp [CLIENT_END_CODE, hne]

/-- What `recMsg` leaves in `buf` at the client: whatever way the reply
`C ++ "@END@" ++ trailing` is split over the `recv` calls, it takes `len(P) + 3`
bytes, the ciphertext and the first three bytes of the end marker. -/
theorem recMsg_reply (P C trailing : List Nat) (offer : Nat → Int)
    (hC : ∀ c ∈ C, isAlphabet c)
    (hlen : C.length = P.length) (hoff : ∀ n, 1 ≤ offer n) :
    recMsg ((P.length + 3 : Nat) : Int) (C ++ END_DELIMITER ++ trailing) offer
      = Res.done (C ++ [64, 69, 78], P.length + 3) := by
  have hfull : C ++ END_DELIMITER ++ trailing = C ++ [64, 69, 78] ++ ([68, 64] ++ trailing) := by
    simp [END_DELIMITER]
  have hrec := recMsg_done (C ++ [64, 69, 78] ++ ([68, 64] ++ trailing)) (P.length + 3) offer
    hoff (by simp; omega) (by
      intro k hk
      apply strstr_none_of_count
      have hpre : ((C ++ [64, 69, 78] ++ ([68, 64] ++ trailing)).take k).Sublist
          (C ++ [64, 69]) := by
        have e : C ++ [64, 69, 78] ++ ([68, 64] ++ trailing)
            = (C ++ [64, 69]) ++ ([78, 68, 64] ++ trailing) := by simp
        rw [e, List.take_append_of_le_length (by simp; omega)]
        exact List.take_sublist _ _
      have h2 := hpre.count_le 64
      rw [List.count_append, count_at_alphabet C hC] at h2
      have h3 : ([64, 69] : List Nat).count 64 = 1 := by decide
      omega)
  have htake : (C ++ [64, 69, 78] ++ ([68, 64] ++ trailing)).take (P.length + 3)
      = C ++ [64, 69, 78] := by
    rw [List.take_append_of_le_length (by simp; omega)]
    apply List.take_of_length_le
    simp; omega
  rw [htake] at hrec
  rw [hfull]
  exact hrec

theorem enclen_cast (n : Nat) :
    ((n : Int) + (END_CODE_MSG_SIZE : Nat)) = ((n + 3 : Nat) : Int) := by
  simp [END_CODE_MSG_SIZE]

/-- The sentinel-bounded receive of the client within the capacity of `buf`:
whatever way the reply `C ++ "@END@" ++ trailing` is split over the `recv` calls,
`recMsg` takes `len(P) + 3` bytes and the strip leaves exactly `C`. -/
theorem receiveReply_done (P C trailing : List Nat) (offer : Nat → Int)
    (hP : ∀ c ∈ P, isAlphabet c) (hC : ∀ c ∈ C, isAlphabet c)
    (hlen : C.length = P.length) (hcap : P.length + 3 ≤ MAX_MSG_SIZE)
    (hoff : ∀ n, 1 ≤ offer n) :
    receiveReply P (C ++ END_DELIMITER ++ trailing) offer
      = some (Res.done (C ++ [64, 69, 78], P.length + 3, C)) := by
  have hrec := recMsg_reply P C trailing offer hC hlen hoff
  unfold receiveReply
  rw [strlen_alphabet P hP]
  simp only [enclen_cast, hrec, strcspn_alphabet P hP]
  rw [if_neg (by omega)]
  have hz : zeroAt (C ++ [64, 69, 78]) P.length = C ++ 0 :: [69, 78] := by
    unfold zeroAt
    rw [if_pos (by simp; omega), ← hlen]
    simp [List.set_append]
  rw [hz, cstr_append_zero C _ (alphabet_ne_zero C hC)]

/-- Beyond the capacity of `buf` the receive of the client leaves defined
behaviour: `recMsg` takes `len(P) + 3` bytes, more than `buf` holds. -/
theorem receiveReply_overflow (P C trailing : List Nat) (offer : Nat → Int)
    (hP : ∀ c ∈ P, isAlphabet c) (hC : ∀ c ∈ C, isAlphabet c)
    (hlen : C.length = P.length) (hcap : MAX_MSG_SIZE < P.length + 3)
    (hoff : ∀ n, 1 ≤ offer n) :
    receiveReply P (C ++ END_DELIMITER ++ trailing) offer = none := by
  have hrec := recMsg_reply P C trailing offer hC hlen hoff
  unfold receiveReply
  rw [strlen_alphabet P hP]
  simp only [enclen_cast, hrec]
  rw [if_pos hcap]

theorem replicate_A_alphabet (n : Nat) : ∀ c ∈ List.replicate n 65, isAlphabet c := by
  intro c hc
  rw [List.eq_of_mem_replicate hc]
  decide

/-- C3 as stated fails: for the plaintext of 149998 letters `A` and a ciphertext
of the same length, `recMsg` is given the budget 150001 and takes 150001 bytes
of the reply, one more than `char buf[MAX_MSG_SIZE]` holds, so the receive
writes past `buf` and yields nothing defined. -/
theorem receiveReply_past_buf :
    receiveReply (List.replicate 149998 65)
      (List.replicate 149998 65 ++ END_DELIMITER ++ []) (fun _ => 1000) = none :=
  receiveReply_overflow (List.replicate 149998 65) (List.replicate 149998 65) []
    (fun _ => 1000) (replicate_A_alphabet 149998) (replicate_A_alphabet 149998)
    (by rw [List.length_replicate])
    (by rw [List.length_replicate]; decide) (fun _ => by norm_num)

/-- C3, amended: for an alphabet-only plaintext `P` with `len(P) + 3` at most
`MAX_MSG_SIZE`, with ciphertext `C` of the same length, and for every way the
reply stream `C ++ "@END@" ++ trailing` is split over the `recv` calls, the
client's receive (`recMsg` with budget `len(P) + 3` into the zero-filled `buf`,
then the end-code strip) returns and yields exactly `C`, the part of the
stream before the end marker: no byte of the marker and no byte after it. -/
theorem receiveReply_yields_ciphertext (P C trailing : List Nat) (offer : Nat → Int)
    (hP : ∀ c ∈ P, isAlphabet c) (hC : ∀ c ∈ C, isAlphabet c)
    (hlen : C.length = P.length) (hcap : P.length + 3 ≤ MAX_MSG_SIZE)
    (hoff : ∀ n, 1 ≤ offer n) :
    ∃ buf total, receiveReply P (C ++ END_DELIMITER ++ trailing) offer
      = some (Res.done (buf, total, C)) ∧ total ≤ MAX_MSG_SIZE ∧
      C = (C ++ END_DELIMITER ++ trailing).take P.length :=
  ⟨C ++ [64, 69, 78], P.length + 3,
    receiveReply_done P C trailing offer hP hC hlen hcap hoff, hcap,
    by rw [← hlen, List.append_assoc, List.take_left]⟩

/-- C3, amended, at a concrete input: plaintext `"HI"`, ciphertext `"HJ"`, and
the bytes `"XY"` after the end marker, every `recv` delivering two bytes. -/
theorem receiveReply_yields_ciphertext_witness :
    ∃ buf total, receiveReply [72, 73] ([72, 74] ++ END_DELIMITER ++ [88, 89]) (fun _ => 2)
      = some (Res.done (buf, total, [72, 74])) ∧ total ≤ MAX_MSG_SIZE ∧
      [72, 74] = (([72, 74] : List Nat) ++ END_DELIMITER ++ [88, 89]).take
        ([72, 73] : List Nat).length :=
  receiveReply_yields_ciphertext [72, 73] [72, 74] [88, 89] (fun _ => 2)
    (by decide) (by decide) (by decide) (by decide) (fun _ => by norm_num)

/-! ### The control code -/

theorem decimalAux_mem (fuel : Nat) :
    ∀ (n : Nat) (acc : List Nat), ∀ c ∈ decimalAux fuel n acc, c ∈ acc ∨ (48 ≤ c ∧ c ≤ 57) := by
  induction fuel with
  | zero => intro n acc c hc; exact Or.inl hc
  | succ fuel ih =>
    intro n acc c hc
    simp only [decimalAux] at hc
    split at hc
    · rcases List.mem_cons.mp hc with h | h
      · right; omega
      · exact Or.inl h
    · rcases ih _ _ c hc with h | h
      · rcases List.mem_cons.mp h with h | h
        · right; omega
        · exact Or.inl h
      · exact Or.inr h

theorem decimalAux_head (fuel : Nat) :
    ∀ (n : Nat) (acc : List Nat), n < fuel →
      ∃ d rest, decimalAux fuel n acc = d :: rest ∧ 48 ≤ d ∧ d ≤ 57 := by
  induction fuel with
  | zero => intro n acc h; omega
  | succ fuel ih =>
    intro n acc h
    simp only [decimalAux]
    split
    · exact ⟨n + 48, acc, rfl, by omega, by omega⟩
    · exact ih (n / 10) _ (by omega)

theorem decimalAux_length (fuel : Nat) :
    ∀ (n : Nat) (acc : List Nat) (k : Nat), 1 ≤ k → n < 10 ^ k →
      (decimalAux fuel n acc).length ≤ acc.length + k := by
  induction fuel with
  | zero => intro n acc k _ _; simp [decimalAux]
  | succ fuel ih =>
    intro n acc k hk hn
    simp only [decimalAux]
    split
    · simp; omega
    · rename_i h10
      have hk2 : 2 ≤ k := by
        by_contra hc
        have : k = 1 := by omega
        subst this
        omega
      have hdiv : n / 10 < 10 ^ (k - 1) := by
        rw [Nat.div_lt_iff_lt_mul (by norm_num)]
        calc n < 10 ^ k := hn
          _ = 10 ^ (k - 1 + 1) := by rw [Nat.sub_add_cancel hk]
          _ = 10 ^ (k - 1) * 10 := by rw [pow_succ]
      have := ih (n / 10) ((n % 10 + 48) :: acc) (k - 1) (by omega) hdiv
      simp only [List.length_cons] at this
      omega

/-- The digit loop of `atoi` reads back the number `sprintf` wrote. -/
theorem atoiDigits_decimalAux (fuel : Nat) :
    ∀ (n : Nat) (tail : List Nat), n < fuel →
      atoiDigits 0 (decimalAux fuel n tail) = atoiDigits n tail := by
  induction fuel with
  | zero => intro n tail h; omega
  | succ fuel ih =>
    intro n tail h
    simp only [decimalAux]
    split
    · simp only [atoiDigits]
      rw [if_pos (by omega)]
      congr 1
      omega
    · rw [ih (n / 10) _ (by omega)]
      simp only [atoiDigits]
      rw [if_pos (by omega)]
      congr 1
      omega

/-- The text `sprintf("%i")` writes for a number that is not negative is the
decimal text of the number, as `Nat.toDigits 10` gives it. -/
theorem decimalAux_eq_toDigitsCore (fuel : Nat) :
    ∀ (n : Nat) (acc : List Char),
      decimalAux fuel n (acc.map Char.toNat)
        = (Nat.toDigitsCore 10 fuel n acc).map Char.toNat := by
  induction fuel with
  | zero => intro n acc; rfl
  | succ fuel ih =>
    intro n acc
    have hd : (Nat.digitChar (n % 10)).toNat = n % 10 + 48 := by
      have : n % 10 < 10 := Nat.mod_lt _ (by norm_num)
      interval_cases (n % 10) <;> rfl
    simp only [decimalAux, Nat.toDigitsCore]
    by_cases h : n < 10
    · have h0 : n / 10 = 0 := by omega
      have hm : n % 10 = n := by omega
      rw [hm] at hd
      rw [if_pos h, h0]
      simp only [if_true, List.map_cons, hd, hm]
    · have h0 : ¬ n / 10 = 0 := by omega
      rw [if_neg h, if_neg h0, ← ih]
      simp only [List.map_cons, hd]

theorem sprintfInt_nat (n : Nat) :
    sprintfInt (n : Int) = (Nat.toDigits 10 n).map Char.toNat := by
  unfold sprintfInt Nat.toDigits
  rw [if_neg (by omega)]
  simpa using decimalAux_eq_toDigitsCore (n + 1) n []

theorem sprintfInt_natCast (n : Nat) : sprintfInt (n : Int) = decimalAux (n + 1) n [] := by
  unfold sprintfInt
  rw [if_neg (by omega)]
  simp

theorem sprintfInt_ne_zero (n : Nat) : ∀ c ∈ sprintfInt (n : Int), c ≠ 0 := by
  intro c hc
  rw [sprintfInt_natCast] at hc
  rcases decimalAux_mem _ _ _ c hc with h | h
  · cases h
  · omega

theorem toInt32_clampLong_of_int (n : Nat) (h : n < 2 ^ 31) :
    toInt32 (clampLong (n : Int)) = (n : Int) := by
  have h1 : (n : Int) < 2147483648 := by
    have : (2 : Nat) ^ 31 = 2147483648 := by norm_num
    omega
  unfold toInt32 clampLong
  rw [min_eq_left (by omega), max_eq_right (by omega)]
  omega

/-- The daemon's `atoi` reads back the number the client's `sprintf` wrote,
when the number is in the range of `int`. -/
theorem atoi_sprintfInt (n : Nat) (h : n < 2 ^ 31) :
    atoi (sprintfInt (n : Int)) = (n : Int) := by
  have hz := sprintfInt_ne_zero n
  unfold atoi
  rw [cstr_eq_self _ hz, sprintfInt_natCast]
  obtain ⟨d, rest, hd, h1, h2⟩ := decimalAux_head (n + 1) n [] (Nat.lt_succ_self n)
  have hval := atoiDigits_decimalAux (n + 1) n [] (Nat.lt_succ_self n)
  rw [hd] at hval ⊢
  have hsp : isspace d = false := by
    unfold isspace
    simp only [Bool.or_eq_false_iff, beq_eq_false_iff_ne, ne_eq, Bool.and_eq_false_iff,
      decide_eq_false_iff_not]
    omega
  rw [List.dropWhile_cons_of_neg (by simp [hsp])]
  split
  · rename_i ds heq
    cases heq; omega
  · rename_i ds heq
    cases heq; omega
  · rw [hval]
    exact toInt32_clampLong_of_int n h

theorem SECRETCODE_ne_zero : ∀ c ∈ SECRETCODE, c ≠ 0 := by decide

/-- The client's control code for a message without `0` byte: the role tag
and the decimal text of the message's length, within 14 bytes when the length
is an `int`, read back by the daemon as that length. -/
theorem buildCode_spec (fullStr : List Nat) (hz : ∀ c ∈ fullStr, c ≠ 0)
    (hsize : fullStr.length < 2 ^ 31) :
    buildCode fullStr = SECRETCODE ++ sprintfInt (fullStr.length : Int) ∧
      (buildCode fullStr).length + 1 ≤ SECRETCODESIZE ∧
      atoi (((buildCode fullStr).take SECRETCODESIZE).drop SECRET_MSG_SIZE)
        = (fullStr.length : Int) := by
  have hcode : buildCode fullStr = SECRETCODE ++ sprintfInt (fullStr.length : Int) := by
    unfold buildCode strlen
    rw [cstr_eq_self fullStr hz]
    have h1 : strcat [] SECRETCODE = SECRETCODE := by
      simpa using strcat_eq [] SECRETCODE (by simp) SECRETCODE_ne_zero
    rw [h1, strcat_eq _ _ SECRETCODE_ne_zero (sprintfInt_ne_zero _)]
  have hlen : (sprintfInt (fullStr.length : Int)).length ≤ 10 := by
    rw [sprintfInt_natCast]
    have := decimalAux_length (fullStr.length + 1) fullStr.length [] 10 (by norm_num)
      (by
        have : (2 : Nat) ^ 31 < 10 ^ 10 := by norm_num
        omega)
    simpa using this
  have hcl : (buildCode fullStr).length ≤ 13 := by
    rw [hcode, List.length_append]
    simp only [SECRETCODE, List.length_cons, List.length_nil]
    omega
  refine ⟨hcode, by simp only [SECRETCODESIZE]; omega, ?_⟩
  rw [List.take_of_length_le (by simp only [SECRETCODESIZE]; omega), hcode]
  have hd : (SECRETCODE ++ sprintfInt (fullStr.length : Int)).drop SECRET_MSG_SIZE
      = sprintfInt (fullStr.length : Int) := by
    simp [SECRETCODE, SECRET_MSG_SIZE]
  rw [hd, atoi_sprintfInt _ hsize]

/-- C4: for an alphabet-only plaintext `P` and key `K` with `len(K) ≥ len(P)`, the
client builds its payload whenever its length fits an `int`, and then the control
code is `"ENC"` followed by the decimal text of `N`, where `N = 2 * len(P) + 10` is
the byte length of the payload `sendMsg` transmits afterwards; the control code
(with its terminator) fits the 16-byte buffer, and the daemon's
`atoi(msgSize + 3)` on that control code returns the same `N`. -/
theorem control_code_announces_payload_length (P K : List Nat)
    (hP : ∀ c ∈ P, isAlphabet c) (hK : ∀ c ∈ K, isAlphabet c)
    (hlen : P.length ≤ K.length) :
    (2 * P.length + 11 < 2 ^ 31 → (buildFullStr P K).isSome) ∧
    ∀ fullStr, buildFullStr P K = some fullStr →
      fullStr.length = 2 * P.length + 10 ∧
      buildCode fullStr
        = SECRETCODE ++ (Nat.toDigits 10 (2 * P.length + 10)).map Char.toNat ∧
      (buildCode fullStr).length + 1 ≤ SECRETCODESIZE ∧
      atoi (((buildCode fullStr).take SECRETCODESIZE).drop SECRET_MSG_SIZE)
        = ((2 * P.length + 10 : Nat) : Int) ∧
      ∀ accept : Nat → Int, (∀ n, 1 ≤ accept n) →
        ∃ calls, sendMsg fullStr accept = Res.done calls ∧
          (wireBytes fullStr calls).length = 2 * P.length + 10 := by
  refine ⟨fun hs => by rw [buildFullStr_eq P K hP hK hs]; rfl, ?_⟩
  intro fullStr hbuild
  have hs : 2 * P.length + 11 < 2 ^ 31 := by
    by_contra hc
    unfold buildFullStr at hbuild
    simp only [strlen_alphabet P hP, DELIMITER_SIZE] at hbuild
    rw [if_pos (by omega)] at hbuild
    cases hbuild
  rw [buildFullStr_eq P K hP hK hs] at hbuild
  have hfull := Option.some.inj hbuild
  have hz : ∀ c ∈ fullStr, c ≠ 0 := by
    rw [← hfull]; exact payload_ne_zero P K END_DELIMITER hP hK END_DELIMITER_ne_zero
  have hl : fullStr.length = 2 * P.length + 10 := by
    rw [← hfull]
    simp only [List.length_append, List.length_take, KEY_DELIMITER, END_DELIMITER,
      List.length_cons, List.length_nil]
    omega
  obtain ⟨h1, h2, h3⟩ := buildCode_spec fullStr hz (by omega)
  refine ⟨hl, ?_, h2, ?_, ?_⟩
  · rw [h1, hl, sprintfInt_nat]
  · rw [h3, hl]
  · intro accept hacc
    obtain ⟨calls, hsend, hwire⟩ := sendMsg_done fullStr accept hacc
    exact ⟨calls, hsend, by rw [hwire, cstr_eq_self fullStr hz, hl]⟩

/-- C4 at a concrete input: plaintext `"HI"`, key `"ABC"`. -/
theorem control_code_announces_payload_length_witness :
    (2 * ([72, 73] : List Nat).length + 11 < 2 ^ 31 →
      (buildFullStr [72, 73] [65, 66, 67]).isSome) ∧
    ∀ fullStr, buildFullStr [72, 73] [65, 66, 67] = some fullStr →
      fullStr.length = 2 * ([72, 73] : List Nat).length + 10 ∧
      buildCode fullStr
        = SECRETCODE ++ (Nat.toDigits 10 (2 * ([72, 73] : List Nat).length + 10)).map
            Char.toNat ∧
      (buildCode fullStr).length + 1 ≤ SECRETCODESIZE ∧
      atoi (((buildCode fullStr).take SECRETCODESIZE).drop SECRET_MSG_SIZE)
        = ((2 * ([72, 73] : List Nat).length + 10 : Nat) : Int) ∧
      ∀ accept : Nat → Int, (∀ n, 1 ≤ accept n) →
        ∃ calls, sendMsg fullStr accept = Res.done calls ∧
          (wireBytes fullStr calls).length = 2 * ([72, 73] : List Nat).length + 10 :=
  control_code_announces_payload_length [72, 73] [65, 66, 67]
    (by decide) (by decide) (by decide)

/-! ### The secret code at the daemon -/

/-- C5 as stated fails: the control message `"00014ENC"` has the leading role
tag `"000"`, not `"ENC"`, and the handler acknowledges it, receives the 14-byte
payload `"HI@ENC@AB@END@"` and replies `"HJ@END@"`. -/
theorem handler_acknowledges_misplaced_tag :
    ([48, 48, 48, 49, 52, 69, 78, 67] : List Nat).take SECRET_MSG_SIZE ≠ SECRETCODE ∧
    connectionHandler [48, 48, 48, 49, 52, 69, 78, 67]
      [72, 73, 64, 69, 78, 67, 64, 65, 66, 64, 69, 78, 68, 64] (fun _ => 14) (fun _ => 7)
      = ([Event.sendAck [65, 67, 75, 0],
          Event.recMsg [72, 73, 64, 69, 78, 67, 64, 65, 66, 64, 69, 78, 68, 64] 14,
          Event.sendMsg [72, 74, 64, 69, 78, 68, 64] [⟨0, 7, 7⟩],
          Event.shutdown, Event.close], some 0) := by
  decide

/-- C5, amended: for every control message of at most 16 bytes that leaves the
zero-filled 16-byte buffer `msgSize` terminated (it is shorter than 16 bytes or
holds a `0` byte), if `"ENC"` occurs nowhere in its C string the handler goes to
the rejected path: it sends no acknowledgement, receives no payload, sends no
reply, shuts down and closes the connection and exits with status 1; and the
acknowledgement is sent exactly when `"ENC"` occurs somewhere in that string. -/
theorem handler_rejects_without_secret (ctrl stream : List Nat) (offer accept : Nat → Int)
    (hlen : ctrl.length ≤ SECRETCODESIZE)
    (hterm : ctrl.length < SECRETCODESIZE ∨ 0 ∈ ctrl) :
    (¬ SECRETCODE <:+: cstr ctrl →
      connectionHandler ctrl stream offer accept
        = ([Event.shutdown, Event.close], some 1)) ∧
    (Event.sendAck sendAck ∈ (connectionHandler ctrl stream offer accept).1
      ↔ SECRETCODE <:+: cstr ctrl) := by
  have htake : ctrl.take SECRETCODESIZE = ctrl := List.take_of_length_le hlen
  have hnt : ¬ (ctrl.length = SECRETCODESIZE ∧ 0 ∉ ctrl) := by
    rintro ⟨h1, h2⟩
    rcases hterm with h | h
    · omega
    · exact h2 h
  have hrej : ¬ SECRETCODE <:+: cstr ctrl →
      connectionHandler ctrl stream offer accept
        = ([Event.shutdown, Event.close], some 1) := by
    intro hno
    have hs : strstr ctrl SECRETCODE = none := (findSub_eq_none_iff _ _).mpr hno
    unfold connectionHandler
    simp only [htake]
    rw [if_neg hnt, if_pos hs]
  refine ⟨hrej, ?_⟩
  by_cases hin : SECRETCODE <:+: cstr ctrl
  · have hs : ¬ strstr ctrl SECRETCODE = none := fun h =>
      (findSub_eq_none_iff _ _).mp h hin
    simp only [hin, iff_true]
    unfold connectionHandler
    simp only [htake]
    rw [if_neg hnt, if_neg hs]
    repeat' split
    all_goals simp
  · rw [hrej hin]
    simp [hin]

/-- C5, amended, at a concrete input: the control message `"DEC14"`. -/
theorem handler_rejects_without_secret_witness :
    (¬ SECRETCODE <:+: cstr [68, 69, 67, 49, 52] →
      connectionHandler [68, 69, 67, 49, 52] [72, 73] (fun _ => 1) (fun _ => 1)
        = ([Event.shutdown, Event.close], some 1)) ∧
    (Event.sendAck sendAck ∈
        (connectionHandler [68, 69, 67, 49, 52] [72, 73] (fun _ => 1) (fun _ => 1)).1
      ↔ SECRETCODE <:+: cstr [68, 69, 67, 49, 52]) :=
  handler_rejects_without_secret [68, 69, 67, 49, 52] [72, 73] (fun _ => 1) (fun _ => 1)
    (by decide) (by decide)

/-! ### The acknowledgement at the client -/

theorem validateFrom_spec (l : List Nat) :
    (validateFrom l = 1 ↔ ∀ c ∈ l, isAlphabet c) ∧
      (validateFrom l = 0 ↔ ¬ ∀ c ∈ l, isAlphabet c) := by
  induction l with
  | nil => simp [validateFrom]
  | cons c t ih =>
    simp only [validateFrom, List.forall_mem_cons]
    by_cases h1 : c < 65 ∨ c > 90
    · by_cases h2 : c = 32
      · have ha32 : isAlphabet 32 := by decide
        subst h2
        simp only [h1, if_true, ha32, true_and]
        exact ih
      · have ha : ¬ isAlphabet c := by unfold isAlphabet; omega
        simp [h1, h2, ha]
    · have ha : isAlphabet c := by unfold isAlphabet; omega
      simp only [h1, if_false, ha, true_and]
      exact ih

theorem validateStr_alphabet (s : List Nat) (h : ∀ c ∈ s, isAlphabet c) :
    validateStr s = 1 := by
  unfold validateStr
  rw [cstr_alphabet s h]
  exact (validateFrom_spec s).1.mpr h

/-- C8: `validateStr(s)` returns 1 if and only if every character of the string
`s` is an uppercase letter or a space, and returns 0 otherwise; and the client,
given a plaintext or a key for which it returns 0, returns 1 with no event at
all: no host lookup, no socket, no connection, no byte sent. -/
theorem validateStr_iff_alphabet (s : List Nat) :
    (validateStr s = 1 ↔ ∀ c ∈ cstr s, isAlphabet c) ∧
    (validateStr s = 0 ↔ ¬ ∀ c ∈ cstr s, isAlphabet c) ∧
    ∀ (other : List Nat) (env : ClientEnv), validateStr s = 0 →
      clientMain s other env = ([], some 1) ∧ clientMain other s env = ([], some 1) := by
  refine ⟨(validateFrom_spec (cstr s)).1, (validateFrom_spec (cstr s)).2, ?_⟩
  intro other env h0
  constructor
  · unfold clientMain
    rw [if_pos h0]
  · unfold clientMain
    by_cases ho : validateStr other = 0
    · rw [if_pos ho]
    · rw [if_neg ho, if_pos h0]

/-- C8 at a concrete input: the string `"Hi"`, as the plaintext and as the key. -/
theorem validateStr_iff_alphabet_witness :
    validateStr [72, 105] = 0 ∧
    clientMain [72, 105] [65]
      ⟨true, true, true, fun _ => 1, 0, fun _ => [], fun _ => 1, [], fun _ => 1⟩
      = ([], some 1) ∧
    clientMain [65] [72, 105]
      ⟨true, true, true, fun _ => 1, 0, fun _ => [], fun _ => 1, [], fun _ => 1⟩
      = ([], some 1) :=
  ⟨by decide, (validateStr_iff_alphabet [72, 105]).2.2 [65]
    ⟨true, true, true, fun _ => 1, 0, fun _ => [], fun _ => 1, [], fun _ => 1⟩ (by decide)⟩

/-- C9: for an alphabet-only plaintext `P` and key `K`, when `len(K) < len(P)` the
client returns 1 with no event at all (no host lookup, no socket, no connection,
no control code, no payload); and when `len(K) ≥ len(P)` the check does not
reject: the run goes on to the host lookup. -/
theorem client_refuses_short_key (P K : List Nat) (env : ClientEnv)
    (hP : ∀ c ∈ P, isAlphabet c) (hK : ∀ c ∈ K, isAlphabet c) :
    (K.length < P.length → clientMain P K env = ([], some 1)) ∧
    (P.length ≤ K.length →
      ∃ rest, (clientMain P K env).1 = Event.gethostbyname :: rest) := by
  have hvP : ¬ validateStr P = 0 := by rw [validateStr_alphabet P hP]; decide
  have hvK : ¬ validateStr K = 0 := by rw [validateStr_alphabet K hK]; decide
  constructor
  · intro hlt
    unfold clientMain
    rw [if_neg hvP, if_neg hvK, strlen_alphabet P hP, strlen_alphabet K hK, if_pos hlt]
  · intro hle
    unfold clientMain
    rw [if_neg hvP, if_neg hvK, strlen_alphabet P hP, strlen_alphabet K hK,
      if_neg (by omega)]
    split
    · exact ⟨_, rfl⟩
    split
    · exact ⟨_, rfl⟩
    split
    · exact ⟨_, rfl⟩
    · exact ⟨_, rfl⟩

/-- C9 at a concrete input: plaintext `"HELLO"`, key `"AB"`. -/
theorem client_refuses_short_key_witness :
    (([65, 66] : List Nat).length < ([72, 69, 76, 76, 79] : List Nat).length →
      clientMain [72, 69, 76, 76, 79] [65, 66]
        ⟨true, true, true, fun _ => 1, 0, fun _ => [], fun _ => 1, [], fun _ => 1⟩
        = ([], some 1)) ∧
    (([72, 69, 76, 76, 79] : List Nat).length ≤ ([65, 66] : List Nat).length →
      ∃ rest, (clientMain [72, 69, 76, 76, 79] [65, 66]
        ⟨true, true, true, fun _ => 1, 0, fun _ => [], fun _ => 1, [], fun _ => 1⟩).1
        = Event.gethostbyname :: rest) :=
  client_refuses_short_key [72, 69, 76, 76, 79] [65, 66]
    ⟨true, true, true, fun _ => 1, 0, fun _ => [], fun _ => 1, [], fun _ => 1⟩
    (by decide) (by decide)

/-! ### A receive that stops at the end code -/

/-- With a socket that delivers at least one byte on every `recv`, the loop of
`recMsg` ends with a leading part of the stream in the buffer: all `n` bytes,
or fewer when the end code already shows in them. -/
theorem recLoop_stops (full : List Nat) (n : Nat) (offer : Nat → Int)
    (hoff : ∀ k, 1 ≤ offer k) (hfull : n ≤ full.length) :
    ∀ (fuel call total maxRec : Nat),
      total ≤ n → n - total ≤ fuel →
      (total < n → maxRec = min (n - total) 1000) →
      ∃ t, t ≤ n ∧
        recLoop n offer fuel call (full.drop total) total maxRec (full.take total)
          = Res.done (full.take t, t) ∧
        (t = n ∨ strstr (full.take t) END_DELIMITER ≠ none) := by
  intro fuel
  induction fuel with
  | zero =>
    intro call total maxRec hle hfuel _
    have : total = n := by omega
    subst this
    exact ⟨total, Nat.le_refl _, by simp [recLoop], Or.inl rfl⟩
  | succ fuel ih =>
    intro call total maxRec hle hfuel hmax
    by_cases hlt : total < n
    · by_cases hend : strstr (full.take total) END_DELIMITER = none
      · have hm := hmax hlt
        have ho := hoff call
        have hlen : (full.drop total).length = full.length - total := List.length_drop _ _
        have hk1 : 1 ≤ min (min (offer call).toNat maxRec) (full.drop total).length := by
          have : 1 ≤ (offer call).toNat := by omega
          omega
        have hk2 : min (min (offer call).toNat maxRec) (full.drop total).length ≤ maxRec :=
          Nat.le_trans (Nat.min_le_left _ _) (Nat.min_le_right _ _)
        generalize hk : min (min (offer call).toNat maxRec) (full.drop total).length = k
          at hk1 hk2
        obtain ⟨t, ht, hrun, hstop⟩ := ih (call + 1) (total + k)
          (if n - (total + k) < maxRec ∧ total + k < n then n - (total + k) else maxRec)
          (by omega) (by omega) (by intro _; split <;> omega)
        have hbuf : full.take total ++ (full.drop total).take k = full.take (total + k) :=
          (List.take_add full total k).symm
        refine ⟨t, ht, ?_, hstop⟩
        simp only [recLoop, hlt, hend, and_self, if_true]
        rw [if_neg (by omega)]
        simp only [hk]
        rw [if_neg (by omega), List.drop_drop, hbuf]
        exact hrun
      · refine ⟨total, hle, ?_, Or.inr hend⟩
        simp [recLoop, hend]
    · have : total = n := by omega
      subst this
      exact ⟨total, Nat.le_refl _, by simp [recLoop], Or.inl rfl⟩

theorem not_infix_append_of_not_mem (a : Nat) (ns pre rest : List Nat) (h : a ∉ pre)
    (hrest : ¬ (a :: ns) <:+: rest) : ¬ (a :: ns) <:+: pre ++ rest := by
  induction pre with
  | nil => simpa using hrest
  | cons c pre ih =>
    have hc : a ≠ c := fun e => h (by simp [e])
    have hpre : a ∉ pre := fun e => h (by simp [e])
    rw [List.cons_append, List.infix_cons_iff]
    rintro (hp | hi)
    · exact hc (List.cons_prefix_cons.mp hp).1
    · exact ih hpre hi

/-- The end code does not occur in the payload before the end of the key. -/
theorem END_not_infix_before_end (P K1 : List Nat)
    (hP : ∀ c ∈ P, isAlphabet c) (hK : ∀ c ∈ K1, isAlphabet c) :
    ¬ END_DELIMITER <:+: P ++ KEY_DELIMITER ++ K1 := by
  have h64 : 64 ∉ K1 := at_not_mem_alphabet K1 hK
  have hK1 : ¬ END_DELIMITER <:+: K1 := fun h => h64 (h.subset (by decide))
  rw [List.append_assoc]
  apply not_infix_append_of_not_mem 64 [69, 78, 68, 64] P _ (at_not_mem_alphabet P hP)
  intro h
  simp only [KEY_DELIMITER, END_DELIMITER, List.cons_append, List.nil_append,
    List.infix_cons_iff, List.cons_prefix_cons] at h
  rcases h with h | h | h | h | h | h
  · omega
  · omega
  · omega
  · omega
  · exact h64 (h.2.subset (by decide))
  · exact hK1 h

/-- What `recMsg` leaves in `msgBuffer` at the daemon, whatever way the payload
is split over the `recv` calls: the payload up to the end of the key at least. -/
theorem recMsg_payload (P K trailing : List Nat) (offer : Nat → Int)
    (hP : ∀ c ∈ P, isAlphabet c) (hK : ∀ c ∈ K, isAlphabet c)
    (hlen : P.length ≤ K.length) (hoff : ∀ n, 1 ≤ offer n) :
    ∃ X total, (∀ c ∈ X, c ≠ 0) ∧ total ≤ 2 * P.length + 10 ∧
      recMsg ((2 * P.length + 10 : Nat) : Int)
        (P ++ KEY_DELIMITER ++ K.take P.length ++ END_DELIMITER ++ trailing) offer
        = Res.done (P ++ KEY_DELIMITER ++ K.take P.length ++ X, total) := by
  have hKl : (K.take P.length).length = P.length := by
    rw [List.length_take]; omega
  have hpl : (P ++ KEY_DELIMITER ++ K.take P.length).length = 2 * P.length + 5 := by
    simp only [List.length_append, hKl, KEY_DELIMITER, List.length_cons, List.length_nil]
    omega
  obtain ⟨t, ht, hrun, hstop⟩ := recLoop_stops
    (P ++ KEY_DELIMITER ++ K.take P.length ++ END_DELIMITER ++ trailing)
    (2 * P.length + 10) offer hoff
    (by
      simp only [List.length_append, hpl, END_DELIMITER, List.length_cons, List.length_nil]
      omega)
    (2 * P.length + 10) 0 0
    (if 2 * P.length + 10 < 1000 then 2 * P.length + 10 else 1000)
    (Nat.zero_le _) (by omega) (by intro _; split <;> omega)
  have hrec : recMsg ((2 * P.length + 10 : Nat) : Int)
      (P ++ KEY_DELIMITER ++ K.take P.length ++ END_DELIMITER ++ trailing) offer
      = Res.done ((P ++ KEY_DELIMITER ++ K.take P.length ++ END_DELIMITER ++ trailing).take t,
          t) := by
    simpa [recMsg] using hrun
  have htake : (P ++ KEY_DELIMITER ++ K.take P.length ++ END_DELIMITER ++ trailing).take t
      = (P ++ KEY_DELIMITER ++ K.take P.length ++ END_DELIMITER).take t := by
    apply List.take_append_of_le_length
    simp only [List.length_append, hpl, END_DELIMITER, List.length_cons, List.length_nil]
    omega
  have hge : 2 * P.length + 5 ≤ t := by
    rcases hstop with h | h
    · omega
    · by_contra hlt
      rw [htake, List.take_append_of_le_length (by rw [hpl]; omega)] at h
      apply h
      apply strstr_none_of_not_infix
      · intro c hc
        have hc1 := List.mem_of_mem_take hc
        have := payload_ne_zero P K [] hP hK (by simp)
        exact this c (by simpa using hc1)
      · intro hin
        exact END_not_infix_before_end P (K.take P.length) hP
          (fun c hc => hK c (List.mem_of_mem_take hc))
          (hin.trans (List.take_prefix _ _).isInfix)
  refine ⟨END_DELIMITER.take (t - (2 * P.length + 5)), t,
    fun c hc => END_DELIMITER_ne_zero c (List.mem_of_mem_take hc), ht, ?_⟩
  rw [hrec, htake, List.take_append_eq_append_take, hpl,
    List.take_of_length_le (by rw [hpl]; exact hge)]

/-- The connection handler on the client's control code and payload: whatever
way the payload is split over the `recv` calls and the reply over the `send`
calls, it acknowledges, receives, replies `encode(P, K) ++ "@END@"` and shuts
the connection down. -/
theorem connectionHandler_serves (P K trailing : List Nat) (offer accept : Nat → Int)
    (hP : ∀ c ∈ P, isAlphabet c) (hK : ∀ c ∈ K, isAlphabet c)
    (hlen : P.length ≤ K.length) (hsize : 2 * P.length + 10 < MAX_MSG_SIZE)
    (hoff : ∀ n, 1 ≤ offer n) (hacc : ∀ n, 1 ≤ accept n) :
    ∃ enc buf total calls, encode P K = some enc ∧
      wireBytes (enc ++ END_DELIMITER) calls = enc ++ END_DELIMITER ∧
      connectionHandler (buildCode (P ++ KEY_DELIMITER ++ K.take P.length ++ END_DELIMITER))
        (P ++ KEY_DELIMITER ++ K.take P.length ++ END_DELIMITER ++ trailing) offer accept
        = ([Event.sendAck sendAck, Event.recMsg buf total,
            Event.sendMsg (enc ++ END_DELIMITER) calls, Event.shutdown, Event.close],
           some 0) := by
  have hKl : (K.take P.length).length = P.length := by
    rw [List.length_take]; omega
  have hl : (P ++ KEY_DELIMITER ++ K.take P.length ++ END_DELIMITER).length
      = 2 * P.length + 10 := by
    simp only [List.length_append, hKl, KEY_DELIMITER, END_DELIMITER, List.length_cons,
      List.length_nil]
    omega
  have hsz : 2 * P.length + 10 < 150000 := hsize
  obtain ⟨hcode, hfit, hatoi⟩ := buildCode_spec
    (P ++ KEY_DELIMITER ++ K.take P.length ++ END_DELIMITER)
    (payload_ne_zero P K END_DELIMITER hP hK END_DELIMITER_ne_zero) (by rw [hl]; omega)
  rw [hl] at hatoi
  obtain ⟨X, total, hX, htot, hrec⟩ := recMsg_payload P K trailing offer hP hK hlen hoff
  obtain ⟨enc, henc, _, halpha, hreply⟩ := serverReply_payload P K X hP hK hlen hX
  obtain ⟨calls, hsend, hwire⟩ := sendMsg_done (enc ++ END_DELIMITER) accept hacc
  have hez : ∀ c ∈ enc ++ END_DELIMITER, c ≠ 0 := by
    intro c hc
    rcases List.mem_append.mp hc with hc | hc
    · exact isAlphabet_ne_zero (halpha c hc)
    · exact END_DELIMITER_ne_zero c hc
  rw [cstr_eq_self _ hez] at hwire
  refine ⟨enc, P ++ KEY_DELIMITER ++ K.take P.length ++ X, total, calls, henc, hwire, ?_⟩
  have htk : (buildCode (P ++ KEY_DELIMITER ++ K.take P.length ++ END_DELIMITER)).take
      SECRETCODESIZE = buildCode (P ++ KEY_DELIMITER ++ K.take P.length ++ END_DELIMITER) :=
    List.take_of_length_le (by omega)
  have hsec : ¬ strstr (buildCode (P ++ KEY_DELIMITER ++ K.take P.length ++ END_DELIMITER))
      SECRETCODE = none := by
    unfold strstr
    rw [hcode, cstr_eq_self _ (by
      intro c hc
      rcases List.mem_append.mp hc with hc | hc
      · exact SECRETCODE_ne_zero c hc
      · exact sprintfInt_ne_zero _ c hc), findSub_at_prefix]
    simp
  unfold connectionHandler
  simp only []
  rw [htk] at hatoi ⊢
  rw [if_neg (by rintro ⟨h1, _⟩; omega), if_neg hsec, hatoi, hrec]
  simp only []
  rw [if_neg (by simp only [MAX_MSG_SIZE]; omega), hreply]
  simp only [hsend]

/-- C2: for an alphabet-only plaintext `P` and key `K` with `len(K) ≥ len(P)` and
`2 * len(P) + 10` below `MAX_MSG_SIZE`, the client's payload is
`P ++ "@ENC@" ++ K[0..len(P)) ++ "@END@"`; the daemon splits it into the plaintext
`P` (what stands before the key delimiter) and the key `K[0..len(P))` (what
follows the delimiter, cut to `len(P)`, without the end marker); the buffer
it passes to `sendMsg` is `encode(P, K) ++ "@END@"`; and in every run of the
connection handler on the client's control code and this payload, however the
stream splits the transfers, the reply handed to `sendMsg` and sent is exactly
`encode(P, K) ++ "@END@"`. -/
theorem handler_splits_and_replies (P K : List Nat)
    (hP : ∀ c ∈ P, isAlphabet c) (hK : ∀ c ∈ K, isAlphabet c)
    (hlen : P.length ≤ K.length) (hsize : 2 * P.length + 10 < MAX_MSG_SIZE) :
    buildFullStr P K = some (P ++ KEY_DELIMITER ++ K.take P.length ++ END_DELIMITER) ∧
    (∃ msgBuffer1,
      splitPayload (P ++ KEY_DELIMITER ++ K.take P.length ++ END_DELIMITER)
        = some (msgBuffer1, K.take P.length) ∧ cstr msgBuffer1 = P) ∧
    ∃ enc, encode P K = some enc ∧
      serverReply (P ++ KEY_DELIMITER ++ K.take P.length ++ END_DELIMITER)
        = some (enc ++ END_DELIMITER) ∧
      ∀ (trailing : List Nat) (offer accept : Nat → Int),
        (∀ n, 1 ≤ offer n) → (∀ n, 1 ≤ accept n) →
        ∃ buf total calls,
          wireBytes (enc ++ END_DELIMITER) calls = enc ++ END_DELIMITER ∧
          connectionHandler
            (buildCode (P ++ KEY_DELIMITER ++ K.take P.length ++ END_DELIMITER))
            (P ++ KEY_DELIMITER ++ K.take P.length ++ END_DELIMITER ++ trailing)
            offer accept
            = ([Event.sendAck sendAck, Event.recMsg buf total,
                Event.sendMsg (enc ++ END_DELIMITER) calls, Event.shutdown, Event.close],
               some 0) := by
  have hs : 2 * P.length + 11 < 2 ^ 31 := by
    simp only [MAX_MSG_SIZE] at hsize
    omega
  obtain ⟨mb, hsplit, hcstr, _⟩ :=
    splitPayload_payload P K END_DELIMITER hP hK hlen END_DELIMITER_ne_zero
  obtain ⟨enc, henc, _, _, hreply⟩ :=
    serverReply_payload P K END_DELIMITER hP hK hlen END_DELIMITER_ne_zero
  refine ⟨buildFullStr_eq P K hP hK hs, ⟨mb, hsplit, hcstr⟩, enc, henc, hreply, ?_⟩
  intro trailing offer accept hoff hacc
  obtain ⟨enc1, buf, total, calls, henc1, hwire, hrun⟩ :=
    connectionHandler_serves P K trailing offer accept hP hK hlen hsize hoff hacc
  have he : enc1 = enc := Option.some.inj (henc1.symm.trans henc)
  subst he
  exact ⟨buf, total, calls, hwire, hrun⟩

/-- C2 at a concrete input: plaintext `"HI"`, key `"ABC"`. -/
theorem handler_splits_and_replies_witness :
    buildFullStr [72, 73] [65, 66, 67]
      = some ([72, 73] ++ KEY_DELIMITER ++ [65, 66] ++ END_DELIMITER) ∧
    splitPayload ([72, 73] ++ KEY_DELIMITER ++ [65, 66] ++ END_DELIMITER)
      = some ([72, 73, 0, 69, 78, 67, 64, 65, 66, 64, 69, 78, 68, 64], [65, 66]) ∧
    encode [72, 73] [65, 66, 67] = some [72, 74] ∧
    serverReply ([72, 73] ++ KEY_DELIMITER ++ [65, 66] ++ END_DELIMITER)
      = some ([72, 74] ++ END_DELIMITER) ∧
    connectionHandler (buildCode ([72, 73] ++ KEY_DELIMITER ++ [65, 66] ++ END_DELIMITER))
      ([72, 73] ++ KEY_DELIMITER ++ [65, 66] ++ END_DELIMITER) (fun _ => 5) (fun _ => 7)
      = ([Event.sendAck sendAck,
          Event.recMsg ([72, 73] ++ KEY_DELIMITER ++ [65, 66] ++ END_DELIMITER) 14,
          Event.sendMsg ([72, 74] ++ END_DELIMITER) [⟨0, 7, 7⟩],
          Event.shutdown, Event.close], some 0) := by
  have h := handler_splits_and_replies [72, 73] [65, 66, 67]
    (by decide) (by decide) (by decide) (by decide)
  refine ⟨h.1, by decide, by decide, by decide, by decide⟩

/-! ### The acknowledgement at the daemon -/

/-- C11 as stated fails: the byte sequence `sendAck` asks `send` to transmit has
length 4, not 3, and holds a byte that is none of `'A'`, `'C'`, `'K'`: the
terminating `0` of the array `ack`. -/
theorem sendAck_not_three_bytes :
    sendAck.length ≠ 3 ∧ sendAck ≠ ACK ∧ (0 ∈ sendAck ∧ 0 ∉ ACK) := by
  decide

/-- C11, amended: `sendAck` asks `send` to transmit exactly the 4 bytes
`'A', 'C', 'K', 0`, the `sizeof(ack)` bytes of `char ack[] = "ACK"`: the fixed 3-byte
token followed by its terminating `0` byte, and nothing else. -/
theorem sendAck_bytes :
    sendAck = [65, 67, 75, 0] ∧ sendAck.length = 4 ∧ sendAck.take 3 = ACK ∧
      cstr sendAck = ACK := by
  decide

/-! ### The calls of the sending loop, one by one -/

/-- With a socket that accepts at least one byte on every `send`, the loop of
`sendMsg` ends; its `i`-th further call starts where the bytes sent so far end,
asks for `min(remaining, 1000)` bytes and sends what the socket accepts of them,
at least one byte; and the counts sent add up to what was left to send. -/
theorem sendLoop_trace (B : Nat) (accept : Nat → Int) (hacc : ∀ n, 1 ≤ accept n) :
    ∀ (fuel call total maxSend : Nat) (calls : List SendCall),
      total ≤ B → B - total ≤ fuel →
      (total < B → maxSend = min (B - total) 1000) →
      ∃ extra, sendLoop B accept fuel call total maxSend calls = Res.done (calls ++ extra) ∧
        (extra.map SendCall.sent).sum = B - total ∧
        ∀ (i : Nat) (c : SendCall), extra.get? i = some c →
          c.offset = total + ((extra.take i).map SendCall.sent).sum ∧
          c.requested = min (B - c.offset) 1000 ∧
          c.sent = min (accept (call + i)).toNat c.requested ∧
          1 ≤ c.sent := by
  intro fuel
  induction fuel with
  | zero =>
    intro call total maxSend calls hle hfuel _
    have hnl : ¬ total < B := by omega
    refine ⟨[], by simp [sendLoop, hnl], by simp; omega, ?_⟩
    intro i c hc
    simp at hc
  | succ fuel ih =>
    intro call total maxSend calls hle hfuel hmax
    by_cases hlt : total < B
    · have hm := hmax hlt
      have ha := hacc call
      have hk1 : 1 ≤ min (accept call).toNat maxSend := by
        have : 1 ≤ (accept call).toNat := by omega
        omega
      have hk2 : min (accept call).toNat maxSend ≤ maxSend := Nat.min_le_right _ _
      generalize hk : min (accept call).toNat maxSend = k at hk1 hk2
      obtain ⟨extra, hrun, hsum, hcalls⟩ := ih (call + 1) (total + k)
        (if B - (total + k) < maxSend ∧ total + k < B then B - (total + k) else maxSend)
        (calls ++ [⟨total, maxSend, k⟩]) (by omega) (by omega) (by
          intro _
          split <;> omega)
      refine ⟨⟨total, maxSend, k⟩ :: extra, ?_, ?_, ?_⟩
      · simp only [sendLoop, hlt, if_true]
        rw [if_neg (by omega)]
        simp only [hk]
        rw [if_neg (by omega), hrun]
        simp
      · simp only [List.map_cons, List.sum_cons, hsum]
        omega
      · intro i c hc
        cases i with
        | zero =>
          simp only [List.get?_cons_zero, Option.some.injEq] at hc
          subst hc
          simp only [List.take_zero, List.map_nil, List.sum_nil, Nat.add_zero]
          exact ⟨trivial, hm, hk.symm, hk1⟩
        | succ j =>
          simp only [List.get?_cons_succ] at hc
          obtain ⟨h1, h2, h3, h4⟩ := hcalls j c hc
          refine ⟨?_, h2, ?_, h4⟩
          · simp only [List.take_succ_cons, List.map_cons, List.sum_cons]
            omega
          · rw [show call + (j + 1) = call + 1 + j by omega]
            exact h3
    · refine ⟨[], by simp [sendLoop, hlt], by simp; omega, ?_⟩
      intro i c hc
      simp at hc

/-! ### The wait for the send queue -/

/-- The wait ends at the first `ioctl` that reports an empty queue. -/
theorem drainWait_done (outq : Nat → Int) :
    ∀ (k polls n : Nat), (∀ m, m < k → 0 < outq (n + m)) → outq (n + k) = 0 →
      k < polls → drainWait outq polls n = Res.done () := by
  intro k
  induction k with
  | zero =>
    intro polls n _ h0 hp
    obtain ⟨p, rfl⟩ : ∃ p, polls = p + 1 := ⟨polls - 1, by omega⟩
    rw [Nat.add_zero] at h0
    simp [drainWait, h0]
  | succ k ih =>
    intro polls n hpos h0 hp
    obtain ⟨p, rfl⟩ : ∃ p, polls = p + 1 := ⟨polls - 1, by omega⟩
    have hn : 0 < outq n := by simpa using hpos 0 (Nat.succ_pos k)
    have hrec := ih p (n + 1) (fun m hm => by
      have := hpos (m + 1) (by omega)
      rwa [show n + (m + 1) = n + 1 + m by omega] at this)
      (by rwa [show n + (k + 1) = n + 1 + k by omega] at h0) (by omega)
    simp only [drainWait, gt_iff_lt, hn, if_true]
    exact hrec

/-- The wait leaves through `error("ioctl error")` at the first `ioctl` after
which `checkSend` is negative. -/
theorem drainWait_fatal (outq : Nat → Int) :
    ∀ (k polls n : Nat), (∀ m, m < k → 0 < outq (n + m)) → outq (n + k) < 0 →
      k < polls → drainWait outq polls n = Res.fatal "ioctl error" := by
  intro k
  induction k with
  | zero =>
    intro polls n _ h0 hp
    obtain ⟨p, rfl⟩ : ∃ p, polls = p + 1 := ⟨polls - 1, by omega⟩
    rw [Nat.add_zero] at h0
    have h1 : ¬ 0 < outq n := by omega
    simp [drainWait, h0, h1]
  | succ k ih =>
    intro polls n hpos h0 hp
    obtain ⟨p, rfl⟩ : ∃ p, polls = p + 1 := ⟨polls - 1, by omega⟩
    have hn : 0 < outq n := by simpa using hpos 0 (Nat.succ_pos k)
    have hrec := ih p (n + 1) (fun m hm => by
      have := hpos (m + 1) (by omega)
      rwa [show n + (m + 1) = n + 1 + m by omega] at this)
      (by rwa [show n + (k + 1) = n + 1 + k by omega] at h0) (by omega)
    simp only [drainWait, gt_iff_lt, hn, if_true]
    exact hrec

/-- While the queue stays non-empty the wait does not end, whatever the
number of `ioctl` calls allowed. -/
theorem drainWait_never (outq : Nat → Int) (hpos : ∀ m, 0 < outq m) :
    ∀ (polls n : Nat), drainWait outq polls n = Res.outOfFuel := by
  intro polls
  induction polls with
  | zero => intro n; rfl
  | succ p ih =>
    intro n
    simp only [drainWait, gt_iff_lt, hpos n, if_true]
    exact ih (n + 1)

/-- C12 as stated fails: `sendMsg` need not terminate. For the one-byte payload
`"H"` on a socket that accepts the byte at once, the sending loop ends after one
`send`, but while `ioctl(TIOCOUTQ)` keeps reporting one byte in the send queue
the function, at every bound on the number of `ioctl` calls, is still in its
wait: it has neither returned nor left through `error()`. -/
theorem sendMsg_waits_forever :
    sendMsg [72] (fun _ => 1) = Res.done [⟨0, 1, 1⟩] ∧
    ∀ polls, sendMsgWhole [72] (fun _ => 1) (fun _ => 1) polls = Res.outOfFuel := by
  refine ⟨by decide, ?_⟩
  intro polls
  have hs : sendMsg [72] (fun _ => 1) = Res.done [⟨0, 1, 1⟩] := by decide
  unfold sendMsgWhole
  rw [hs]
  simp only [drainWait_never (fun _ => 1) (fun _ => by norm_num) polls 0]

/-- C12, amended: for every payload (the C string of `buffer`, of length
`L = strlen(buffer)`) and every sequence of partial-send results in which each
`send` accepts at least one and at most the requested number of bytes, the
sending loop of `sendMsg` ends; its `i`-th `send` starts at the first byte not
yet sent (the offset is the sum of the counts sent before), requests exactly
`min(remaining, 1000)` bytes with `remaining = L - offset`, and sends between 1
and the requested number; the counts sent add up to `L`, the bytes sent, put
together in order, are exactly the payload, and there is no `send` at all when
`L = 0`. After the loop `sendMsg` returns at the first `ioctl(TIOCOUTQ)` that
reports an empty send queue, leaves through `error("ioctl error")` at the first
one that leaves `checkSend` negative, and does not end while the queue stays
non-empty. -/
theorem sendMsg_sends_payload_in_chunks (buffer : List Nat) (accept : Nat → Int)
    (hacc : ∀ n, 1 ≤ accept n) :
    ∃ calls, sendMsg buffer accept = Res.done calls ∧
      (∀ (i : Nat) (c : SendCall), calls.get? i = some c →
        c.offset = ((calls.take i).map SendCall.sent).sum ∧
        c.requested = min (strlen buffer - c.offset) 1000 ∧
        c.sent = min (accept i).toNat c.requested ∧
        1 ≤ c.sent ∧ c.sent ≤ c.requested) ∧
      (calls.map SendCall.sent).sum = strlen buffer ∧
      wireBytes buffer calls = cstr buffer ∧
      (strlen buffer = 0 → calls = []) ∧
      ((∀ b ∈ buffer, b ≠ 0) →
        strlen buffer = buffer.length ∧ wireBytes buffer calls = buffer) ∧
      (∀ (outq : Nat → Int) (k polls : Nat), (∀ m, m < k → 0 < outq m) → k < polls →
        (outq k = 0 → sendMsgWhole buffer accept outq polls = Res.done calls) ∧
        (outq k < 0 → sendMsgWhole buffer accept outq polls = Res.fatal "ioctl error")) ∧
      (∀ (outq : Nat → Int) (polls : Nat), (∀ m, 0 < outq m) →
        sendMsgWhole buffer accept outq polls = Res.outOfFuel) := by
  obtain ⟨calls, hrun, hsum, hcalls⟩ := sendLoop_trace (strlen buffer) accept hacc
    (strlen buffer) 0 0 (if strlen buffer < 1000 then strlen buffer else 1000) []
    (Nat.zero_le _) (by omega) (by intro _; split <;> omega)
  have hsend : sendMsg buffer accept = Res.done calls := by simpa [sendMsg] using hrun
  obtain ⟨calls1, hsend1, hwire⟩ := sendMsg_done buffer accept hacc
  have heq : calls1 = calls := by
    rw [hsend] at hsend1
    exact (Res.done.inj hsend1).symm
  subst heq
  rw [Nat.sub_zero] at hsum
  refine ⟨calls1, hsend, ?_, hsum, hwire, ?_, ?_, ?_, ?_⟩
  · intro i c hc
    obtain ⟨h1, h2, h3, h4⟩ := hcalls i c hc
    rw [Nat.zero_add] at h1 h3
    exact ⟨h1, h2, h3, h4, by rw [h3]; exact Nat.min_le_right _ _⟩
  · intro h0
    cases hc : calls1 with
    | nil => rfl
    | cons c cs =>
      exfalso
      obtain ⟨_, _, _, h4⟩ := hcalls 0 c (by rw [hc]; rfl)
      rw [hc, h0] at hsum
      simp only [List.map_cons, List.sum_cons] at hsum
      omega
  · intro hz
    have hc := cstr_eq_self buffer hz
    refine ⟨by unfold strlen; rw [hc], by rw [hwire, hc]⟩
  · intro outq k polls hpos hk
    constructor
    · intro h0
      have hw := drainWait_done outq k polls 0 (fun m hm => by simpa using hpos m hm)
        (by simpa using h0) hk
      unfold sendMsgWhole
      rw [hsend]
      simp only [hw]
    · intro h0
      have hw := drainWait_fatal outq k polls 0 (fun m hm => by simpa using hpos m hm)
        (by simpa using h0) hk
      unfold sendMsgWhole
      rw [hsend]
      simp only [hw]
  · intro outq polls hpos
    unfold sendMsgWhole
    rw [hsend]
    simp only [drainWait_never outq hpos polls 0]

/-- C12, amended, at a concrete input: the payload `"HELLO"` on a socket that
accepts two bytes per `send`. -/
theorem sendMsg_sends_payload_in_chunks_witness :
    ∃ calls, sendMsg [72, 69, 76, 76, 79] (fun _ => 2) = Res.done calls ∧
      (∀ (i : Nat) (c : SendCall), calls.get? i = some c →
        c.offset = ((calls.take i).map SendCall.sent).sum ∧
        c.requested = min (strlen [72, 69, 76, 76, 79] - c.offset) 1000 ∧
        c.sent = min ((fun _ => 2 : Nat → Int) i).toNat c.requested ∧
        1 ≤ c.sent ∧ c.sent ≤ c.requested) ∧
      (calls.map SendCall.sent).sum = strlen [72, 69, 76, 76, 79] ∧
      wireBytes [72, 69, 76, 76, 79] calls = cstr [72, 69, 76, 76, 79] ∧
      (strlen [72, 69, 76, 76, 79] = 0 → calls = []) ∧
      ((∀ b ∈ ([72, 69, 76, 76, 79] : List Nat), b ≠ 0) →
        strlen [72, 69, 76, 76, 79] = ([72, 69, 76, 76, 79] : List Nat).length ∧
        wireBytes [72, 69, 76, 76, 79] calls = [72, 69, 76, 76, 79]) ∧
      (∀ (outq : Nat → Int) (k polls : Nat), (∀ m, m < k → 0 < outq m) → k < polls →
        (outq k = 0 →
          sendMsgWhole [72, 69, 76, 76, 79] (fun _ => 2) outq polls = Res.done calls) ∧
        (outq k < 0 →
          sendMsgWhole [72, 69, 76, 76, 79] (fun _ => 2) outq polls
            = Res.fatal "ioctl error")) ∧
      (∀ (outq : Nat → Int) (polls : Nat), (∀ m, 0 < outq m) →
        sendMsgWhole [72, 69, 76, 76, 79] (fun _ => 2) outq polls = Res.outOfFuel) :=
  sendMsg_sends_payload_in_chunks [72, 69, 76, 76, 79] (fun _ => 2) (fun _ => by norm_num)

end OneTimePad
